import Mathlib

/-!
Verification of the bracket-tag DSL syntax checker (`tagunmatched.py`).

The embedding models the mutable `SyntaxChecker` object as explicit state
passing: the scanner state carries the remaining input (`rest`, i.e.
`self.code[self.pos:]`), the 1-based `line` and `col` counters, and the
open-tag `stack`.  The Python stack is a list with `append`/`pop` at the
right end (top of stack last); here the stack is a `List String` with the
top of the stack at the head, so `append` is `cons` and `pop` takes the
head.

Fallible code is modelled with `Except`.  A raised `DSLSyntaxError` is the
`PyErr.dsl` constructor; Python's `advance` indexes `self.code[self.pos]`
without a bounds check, so an out-of-range access (an uncaught
`IndexError`) is the separate `PyErr.indexError` constructor, produced at
exactly the source positions where `advance` can run at end of input.

Each `while` loop of the source becomes a function that is structurally
recursive on an explicit `fuel : Nat` bound, plus a wrapper supplying
`rest.length + 1` fuel; every loop iteration consumes at least one input
character, so this fuel never runs out.  This is proved once per loop as a
fuel-irrelevance lemma and packaged into an unfolding equation (`*_eq`)
that restates the loop as its natural recursion.  All definitions are
plain structural recursion and evaluate on concrete inputs.

`str.isalnum` in Python is Unicode-aware: it also accepts non-ASCII
alphanumerics (e.g. `'あ'`, `'Ω'`), which this embedding's `isalnum`
(`Char.isAlphanum`, exactly `[A-Za-z0-9]`) rejects.  The two classifiers
provably coincide on ASCII characters, so the grammar-exactness theorem
(`claim_construct_grammar`) carries an explicit all-ASCII hypothesis on
its input: on that domain the embedding is faithful to the source, while
outside it the source accepts tag names beyond the spec's
`[A-Za-z0-9#][A-Za-z0-9#_-]*` alphabet.
-/

/-- The payload of a `DSLSyntaxError`: 1-based line and column, the message
string, and a snapshot (copy) of the open-tag stack at the failure site. -/
structure DSLError where
  line : Nat
  col : Nat
  message : String
  stack : List String
  deriving DecidableEq

/-- How a run of the checker can fail: a constructed `DSLSyntaxError`
(raised or reported, depending on the mode), or an uncaught `IndexError`
from `advance` indexing past the end of the input. -/
inductive PyErr where
  | dsl : DSLError → PyErr
  | indexError : PyErr
  deriving DecidableEq

/-- Scanner state: remaining input, current line/column, open-tag stack
(top of the stack at the head). -/
structure St where
  rest : List Char
  line : Nat
  col : Nat
  stack : List String
  deriving DecidableEq

/-- `self.error(message)` builds the failure value from the current state. -/
def mkErr (s : St) (message : String) : DSLError :=
  ⟨s.line, s.col, message, s.stack⟩

/-- The escape marker, a backquote (U+0060). -/
def escChar : Char := '\x60'

/-- `is_whitespace`: space, tab, newline, carriage return. -/
def is_whitespace (ch : Char) : Bool :=
  [' ', '\t', '\n', '\r'].contains ch

/-- ASCII fragment of Python's `str.isalnum` (see the header comment):
`Char.isAlphanum` is exactly `[A-Za-z0-9]` and agrees with the source's
Unicode-aware classifier on every ASCII character, but rejects the
non-ASCII alphanumerics the source accepts; statements whose truth
depends on this class are therefore scoped to ASCII input. -/
def isalnum (ch : Char) : Bool := ch.isAlphanum

/-- Line/column update performed by `advance` for a consumed character:
a newline starts a new line at column 1, anything else moves one column. -/
def bumpLC (ch : Char) (s : St) : St :=
  if ch = '\n' then { s with line := s.line + 1, col := 1 }
  else { s with col := s.col + 1 }

@[simp] theorem bumpLC_rest (ch : Char) (s : St) : (bumpLC ch s).rest = s.rest := by
  unfold bumpLC; split <;> rfl

@[simp] theorem bumpLC_stack (ch : Char) (s : St) : (bumpLC ch s).stack = s.stack := by
  unfold bumpLC; split <;> rfl

/-- The effect of `advance` on a state whose remaining input is known to be
`ch :: r` (the guarded call sites): drop the character and update line/col. -/
def consume (ch : Char) (r : List Char) (s : St) : St :=
  bumpLC ch { s with rest := r }

@[simp] theorem consume_rest (ch : Char) (r : List Char) (s : St) :
    (consume ch r s).rest = r := by
  simp [consume]

@[simp] theorem consume_stack (ch : Char) (r : List Char) (s : St) :
    (consume ch r s).stack = s.stack := by
  simp [consume]

/- Error messages, verbatim from the source. -/

def m_dangling_top : String := "単独のバッククオートが末尾に現れました"
def m_unclosed : String := "閉じられていないタグが残っています"
def m_no_name : String := "タグ名がありません"
def m_bq_in_name : String := "タグ名にバッククオートが現れました"
def m_bad_first : String := "タグ名の先頭文字が不正です"
def m_eof_in_name : String := "タグ名の途中で文字列が終了しました"
def m_bad_char : String := "タグ名に不正な文字が含まれています"
def m_unterm_quote : String := "引用された引数が閉じられていません"
def m_dangling_quote : String := "単独のバッククオートが末尾に現れました (引用内)"
def m_dangling_unquoted : String := "単独のバッククオートが末尾に現れました (非引用内)"
def m_bracket_arg : String := "非引用内の引数でエスケープされていない \x27[\x27 が現れました"
def m_no_term : String := "タグの終了記号 \x27]\x27 が見つかりません"
def m_close_single (tag_name : String) : String :=
  "閉じタグが不要なタグ [/" ++ tag_name ++ "] が現れました"
def m_close_noopen (tag_name : String) : String :=
  "閉じタグ [/" ++ tag_name ++ "] に対応する開始タグがありません"
def m_mismatch (tag_name last_tag : String) : String :=
  "閉じタグ [/" ++ tag_name ++ "] が直前の開始タグ [" ++ last_tag ++ "] と一致しません"
def m_unknown (tag_name : String) : String :=
  "未知のタグ [" ++ tag_name ++ "] が現れました"

/-- Fueled version of `skip_whitespace` (the wrapper below supplies enough
fuel, so the `0` case is unreachable). -/
def skip_whitespaceF : Nat → St → St
  | 0, s => s
  | fuel + 1, s =>
      match s.rest with
      | [] => s
      | ch :: r =>
          if is_whitespace ch then skip_whitespaceF fuel (consume ch r s) else s

/-- `skip_whitespace` (source lines 87–89): advance while the current
character is whitespace. -/
def skip_whitespace (s : St) : St := skip_whitespaceF (s.rest.length + 1) s

theorem skip_whitespaceF_irrel (f1 : Nat) (f2 : Nat) (s : St)
    (h1 : s.rest.length < f1) (h2 : s.rest.length < f2) :
    skip_whitespaceF f1 s = skip_whitespaceF f2 s := by
  induction f1 generalizing f2 s with
  | zero => omega
  | succ f1 ih =>
      cases f2 with
      | zero => omega
      | succ f2 =>
          obtain ⟨rest, l, c, stk⟩ := s
          simp only [St.rest] at h1 h2
          cases rest with
          | nil => rfl
          | cons ch r =>
              simp only [skip_whitespaceF]
              split
              · exact ih _ _ (by simp at h1 ⊢; omega) (by simp at h2 ⊢; omega)
              · rfl

/-- Unfolding equation: `skip_whitespace` is the natural loop. -/
theorem skip_whitespace_eq (s : St) :
    skip_whitespace s =
      match s.rest with
      | [] => s
      | ch :: r =>
          if is_whitespace ch then skip_whitespace (consume ch r s) else s := by
  obtain ⟨rest, l, c, stk⟩ := s
  cases rest with
  | nil => rfl
  | cons ch r =>
      simp only [skip_whitespace, skip_whitespaceF, consume_rest, List.length_cons]

theorem skip_whitespace_nil (s : St) (h : s.rest = []) : skip_whitespace s = s := by
  rw [skip_whitespace_eq, h]

theorem skip_whitespace_cons (s : St) (ch : Char) (r : List Char) (h : s.rest = ch :: r) :
    skip_whitespace s =
      if is_whitespace ch then skip_whitespace (consume ch r s) else s := by
  rw [skip_whitespace_eq, h]

theorem skip_whitespace_not_ws (s : St) (ch : Char) (r : List Char)
    (h : s.rest = ch :: r) (hws : is_whitespace ch = false) : skip_whitespace s = s := by
  rw [skip_whitespace_cons s ch r h, hws]; simp

theorem skip_whitespaceF_length (fuel : Nat) (s : St) :
    (skip_whitespaceF fuel s).rest.length ≤ s.rest.length := by
  induction fuel generalizing s with
  | zero => exact Nat.le_refl _
  | succ fuel ih =>
      obtain ⟨rest, l, c, stk⟩ := s
      cases rest with
      | nil => exact Nat.le_refl _
      | cons ch r =>
          simp only [skip_whitespaceF]
          split
          · have := ih (consume ch r ⟨ch :: r, l, c, stk⟩)
            simp at this ⊢
            omega
          · exact Nat.le_refl _

theorem skip_whitespace_length (s : St) :
    (skip_whitespace s).rest.length ≤ s.rest.length :=
  skip_whitespaceF_length _ s

theorem skip_whitespaceF_stack (fuel : Nat) (s : St) :
    (skip_whitespaceF fuel s).stack = s.stack := by
  induction fuel generalizing s with
  | zero => rfl
  | succ fuel ih =>
      obtain ⟨rest, l, c, stk⟩ := s
      cases rest with
      | nil => rfl
      | cons ch r =>
          simp only [skip_whitespaceF]
          split
          · have := ih (consume ch r ⟨ch :: r, l, c, stk⟩)
            simpa using this
          · rfl

theorem skip_whitespace_stack (s : St) : (skip_whitespace s).stack = s.stack :=
  skip_whitespaceF_stack _ s

/-- Fueled version of `quoteLoop` (the `0` case is unreachable). -/
def quoteLoopF : Nat → St → Except PyErr St
  | 0, _ => .error .indexError
  | fuel + 1, s =>
      match s.rest with
      | [] => .error (.dsl (mkErr s m_unterm_quote))
      | ch :: r =>
          if ch = escChar then
            match r with
            | [] => .error (.dsl (mkErr (consume ch r s) m_dangling_quote))
            | ch2 :: r2 => quoteLoopF fuel (consume ch2 r2 (consume ch r s))
          else if ch = '"' then .ok (consume ch r s)
          else quoteLoopF fuel (consume ch r s)

/-- The quoted-argument loop (source lines 143–157): entered just after the
opening `"` was consumed; consumes characters until an unescaped `"`.  An
escape marker consumes itself plus the next character; end of input inside
the quote (or right after an escape marker) is an error. -/
def quoteLoop (s : St) : Except PyErr St := quoteLoopF (s.rest.length + 1) s

theorem quoteLoopF_irrel (f1 : Nat) (f2 : Nat) (s : St)
    (h1 : s.rest.length < f1) (h2 : s.rest.length < f2) :
    quoteLoopF f1 s = quoteLoopF f2 s := by
  induction f1 generalizing f2 s with
  | zero => omega
  | succ f1 ih =>
      cases f2 with
      | zero => omega
      | succ f2 =>
          obtain ⟨rest, l, c, stk⟩ := s
          simp only [St.rest] at h1 h2
          cases rest with
          | nil => rfl
          | cons ch r =>
              simp only [quoteLoopF]
              split
              · cases r with
                | nil => rfl
                | cons ch2 r2 =>
                    exact ih _ _ (by simp at h1 ⊢; omega) (by simp at h2 ⊢; omega)
              · split
                · rfl
                · exact ih _ _ (by simp at h1 ⊢; omega) (by simp at h2 ⊢; omega)

/-- Unfolding equation: `quoteLoop` is the natural loop. -/
theorem quoteLoop_eq (s : St) :
    quoteLoop s =
      match s.rest with
      | [] => .error (.dsl (mkErr s m_unterm_quote))
      | ch :: r =>
          if ch = escChar then
            match r with
            | [] => .error (.dsl (mkErr (consume ch r s) m_dangling_quote))
            | ch2 :: r2 => quoteLoop (consume ch2 r2 (consume ch r s))
          else if ch = '"' then .ok (consume ch r s)
          else quoteLoop (consume ch r s) := by
  obtain ⟨rest, l, c, stk⟩ := s
  cases rest with
  | nil => rfl
  | cons ch r =>
      have hL : quoteLoop (⟨ch :: r, l, c, stk⟩ : St)
          = quoteLoopF (r.length + 1 + 1) ⟨ch :: r, l, c, stk⟩ := by
        simp [quoteLoop]
      rw [hL]
      generalize hf : r.length + 1 = fuel
      conv_lhs => rw [quoteLoopF]
      simp only []
      split
      · cases r with
        | nil => rfl
        | cons ch2 r2 =>
            simp only [List.length_cons] at hf
            refine quoteLoopF_irrel _ _ _ ?_ ?_ <;> (try simp) <;> (try omega)
      · split
        · rfl
        · refine quoteLoopF_irrel _ _ _ ?_ ?_ <;> (try simp) <;> (try omega)

theorem quoteLoopF_length_ok (fuel : Nat) (s : St) (s' : St)
    (h : quoteLoopF fuel s = .ok s') :
    s'.rest.length < s.rest.length ∧ s'.stack = s.stack := by
  induction fuel generalizing s with
  | zero => simp [quoteLoopF] at h
  | succ fuel ih =>
      obtain ⟨rest, l, c, stk⟩ := s
      cases rest with
      | nil => simp [quoteLoopF] at h
      | cons ch r =>
          simp only [quoteLoopF] at h
          split at h
          · cases r with
            | nil => simp at h
            | cons ch2 r2 =>
                obtain ⟨ha, hb⟩ := ih _ h
                simp at ha hb
                exact ⟨by simp; omega, by simpa using hb⟩
          · split at h
            · simp at h
              subst h
              exact ⟨by simp, by simp⟩
            · obtain ⟨ha, hb⟩ := ih _ h
              simp at ha hb
              exact ⟨by simp; omega, by simpa using hb⟩

theorem quoteLoop_length_ok (s : St) (s' : St) (h : quoteLoop s = .ok s') :
    s'.rest.length < s.rest.length ∧ s'.stack = s.stack :=
  quoteLoopF_length_ok _ s s' h

/-- Fueled version of `nameLoop` (the `0` case is unreachable). -/
def nameLoopF : Nat → St → String → Except PyErr (String × St)
  | 0, _, _ => .error .indexError
  | fuel + 1, s, acc =>
      match s.rest with
      | [] => .error (.dsl (mkErr s m_eof_in_name))
      | ch :: r =>
          if is_whitespace ch ∨ ch = ']' then .ok (acc, s)
          else if ch = escChar then .error (.dsl (mkErr s m_bq_in_name))
          else if ¬ (isalnum ch ∨ ch = '#' ∨ ch = '_' ∨ ch = '-') then
            .error (.dsl (mkErr s m_bad_char))
          else nameLoopF fuel (consume ch r s) (acc.push ch)

/-- The tag-name loop (source lines 115–126): consumes name characters one
at a time, stopping (without consuming) at whitespace or `]`; an escape
marker or an invalid character is an error, as is end of input. -/
def nameLoop (s : St) (acc : String) : Except PyErr (String × St) :=
  nameLoopF (s.rest.length + 1) s acc

theorem nameLoopF_irrel (f1 : Nat) (f2 : Nat) (s : St) (acc : String)
    (h1 : s.rest.length < f1) (h2 : s.rest.length < f2) :
    nameLoopF f1 s acc = nameLoopF f2 s acc := by
  induction f1 generalizing f2 s acc with
  | zero => omega
  | succ f1 ih =>
      cases f2 with
      | zero => omega
      | succ f2 =>
          obtain ⟨rest, l, c, stk⟩ := s
          simp only [St.rest] at h1 h2
          cases rest with
          | nil => rfl
          | cons ch r =>
              simp only [nameLoopF]
              split
              · rfl
              · split
                · rfl
                · split
                  · rfl
                  · exact ih _ _ _ (by simp at h1 ⊢; omega) (by simp at h2 ⊢; omega)

/-- Unfolding equation: `nameLoop` is the natural loop. -/
theorem nameLoop_eq (s : St) (acc : String) :
    nameLoop s acc =
      match s.rest with
      | [] => .error (.dsl (mkErr s m_eof_in_name))
      | ch :: r =>
          if is_whitespace ch ∨ ch = ']' then .ok (acc, s)
          else if ch = escChar then .error (.dsl (mkErr s m_bq_in_name))
          else if ¬ (isalnum ch ∨ ch = '#' ∨ ch = '_' ∨ ch = '-') then
            .error (.dsl (mkErr s m_bad_char))
          else nameLoop (consume ch r s) (acc.push ch) := by
  obtain ⟨rest, l, c, stk⟩ := s
  cases rest with
  | nil => rfl
  | cons ch r =>
      simp only [nameLoop, nameLoopF, consume_rest, List.length_cons]

theorem nameLoopF_length_ok (fuel : Nat) (s : St) (acc : String) (nm : String) (s' : St)
    (h : nameLoopF fuel s acc = .ok (nm, s')) :
    s'.rest.length ≤ s.rest.length ∧ s'.stack = s.stack := by
  induction fuel generalizing s acc with
  | zero => simp [nameLoopF] at h
  | succ fuel ih =>
      obtain ⟨rest, l, c, stk⟩ := s
      cases rest with
      | nil => simp [nameLoopF] at h
      | cons ch r =>
          simp only [nameLoopF] at h
          split at h
          · simp at h
            obtain ⟨-, h⟩ := h
            subst h
            exact ⟨Nat.le_refl _, rfl⟩
          · split at h
            · simp at h
            · split at h
              · simp at h
              · obtain ⟨ha, hb⟩ := ih _ _ h
                simp at ha hb
                exact ⟨by simp; omega, by simpa using hb⟩

theorem nameLoop_length_ok (s : St) (acc : String) (nm : String) (s' : St)
    (h : nameLoop s acc = .ok (nm, s')) :
    s'.rest.length ≤ s.rest.length ∧ s'.stack = s.stack :=
  nameLoopF_length_ok _ s acc nm s' h

/-- One argument-parsing step of the argument loop (source lines 139–170),
entered with the cursor past the whitespace handling: a double-quoted
argument, an escaped character, an unescaped `[` (error), or one ordinary
character.  When the current character is exhausted (`None`), the trailing
`self.advance()` indexes past the end of the input. -/
def argStep (s : St) : Except PyErr St :=
  match s.rest with
  | [] => .error .indexError
  | ch :: r =>
      if ch = '"' then quoteLoop (consume ch r s)
      else if ch = escChar then
        match r with
        | [] => .error (.dsl (mkErr (consume ch r s) m_dangling_unquoted))
        | ch2 :: r2 => .ok (consume ch2 r2 (consume ch r s))
      else if ch = '[' then .error (.dsl (mkErr s m_bracket_arg))
      else .ok (consume ch r s)

theorem argStep_length_ok (s : St) (s' : St) (h : argStep s = .ok s') :
    s'.rest.length < s.rest.length ∧ s'.stack = s.stack := by
  obtain ⟨rest, l, c, stk⟩ := s
  cases rest with
  | nil => simp [argStep] at h
  | cons ch r =>
      simp only [argStep] at h
      split at h
      · obtain ⟨ha, hb⟩ := quoteLoop_length_ok _ _ h
        simp at ha hb
        exact ⟨by simp; omega, by simpa using hb⟩
      · split at h
        · cases r with
          | nil => simp at h
          | cons ch2 r2 =>
              simp at h
              subst h
              exact ⟨by simp; omega, by simp⟩
        · split at h
          · simp at h
          · simp at h
            subst h
            exact ⟨by simp, by simp⟩

/-- Fueled version of `argLoop` (the `0` case is unreachable). -/
def argLoopF : Nat → St → Except PyErr St
  | 0, _ => .error .indexError
  | fuel + 1, s =>
      match s.rest with
      | [] => .ok s
      | ch :: _ =>
          if ch = ']' then .ok s
          else if is_whitespace ch then
            if (skip_whitespace s).rest.head? = some ']' then .ok (skip_whitespace s)
            else
              match argStep (skip_whitespace s) with
              | .error e => .error e
              | .ok s2 => argLoopF fuel s2
          else
            match argStep s with
            | .error e => .error e
            | .ok s2 => argLoopF fuel s2

/-- The argument loop (source lines 132–170): while the current character
exists and is not `]`, a leading whitespace run is skipped as a delimiter
(breaking if `]` follows it), and then one argument step is parsed. -/
def argLoop (s : St) : Except PyErr St := argLoopF (s.rest.length + 1) s

theorem argLoopF_irrel (f1 : Nat) (f2 : Nat) (s : St)
    (h1 : s.rest.length < f1) (h2 : s.rest.length < f2) :
    argLoopF f1 s = argLoopF f2 s := by
  induction f1 generalizing f2 s with
  | zero => omega
  | succ f1 ih =>
      cases f2 with
      | zero => omega
      | succ f2 =>
          obtain ⟨rest, l, c, stk⟩ := s
          simp only [St.rest] at h1 h2
          cases rest with
          | nil => rfl
          | cons ch r =>
              simp only [List.length_cons] at h1 h2
              simp only [argLoopF]
              split
              · rfl
              · split
                · split
                  · rfl
                  · cases hstep : argStep (skip_whitespace ⟨ch :: r, l, c, stk⟩) with
                    | error e => rfl
                    | ok s2 =>
                        have hlen := (argStep_length_ok _ _ hstep).1
                        have hsk := skip_whitespace_length ⟨ch :: r, l, c, stk⟩
                        simp only [St.rest, List.length_cons] at hsk
                        exact ih _ _ (by omega) (by omega)
                · cases hstep : argStep ⟨ch :: r, l, c, stk⟩ with
                  | error e => rfl
                  | ok s2 =>
                      have hlen := (argStep_length_ok _ _ hstep).1
                      simp only [St.rest, List.length_cons] at hlen
                      exact ih _ _ (by omega) (by omega)

/-- Unfolding equation: `argLoop` is the natural loop. -/
theorem argLoop_eq (s : St) :
    argLoop s =
      match s.rest with
      | [] => .ok s
      | ch :: _ =>
          if ch = ']' then .ok s
          else if is_whitespace ch then
            if (skip_whitespace s).rest.head? = some ']' then .ok (skip_whitespace s)
            else
              match argStep (skip_whitespace s) with
              | .error e => .error e
              | .ok s2 => argLoop s2
          else
            match argStep s with
            | .error e => .error e
            | .ok s2 => argLoop s2 := by
  obtain ⟨rest, l, c, stk⟩ := s
  cases rest with
  | nil => rfl
  | cons ch r =>
      have hL : argLoop (⟨ch :: r, l, c, stk⟩ : St)
          = argLoopF (r.length + 1 + 1) ⟨ch :: r, l, c, stk⟩ := by
        simp [argLoop]
      rw [hL]
      generalize hf : r.length + 1 = fuel
      conv_lhs => rw [argLoopF]
      simp only []
      split
      · rfl
      · split
        · split
          · rfl
          · cases hstep : argStep (skip_whitespace ⟨ch :: r, l, c, stk⟩) with
            | error e => rfl
            | ok s2 =>
                have hlen := (argStep_length_ok _ _ hstep).1
                have hsk := skip_whitespace_length ⟨ch :: r, l, c, stk⟩
                simp only [St.rest, List.length_cons] at hsk
                refine argLoopF_irrel _ _ _ ?_ ?_ <;> (try simp) <;> (try omega)
        · cases hstep : argStep ⟨ch :: r, l, c, stk⟩ with
          | error e => rfl
          | ok s2 =>
              have hlen := (argStep_length_ok _ _ hstep).1
              simp only [St.rest, List.length_cons] at hlen
              refine argLoopF_irrel _ _ _ ?_ ?_ <;> (try simp) <;> (try omega)

theorem argLoopF_length_ok (fuel : Nat) (s : St) (s' : St)
    (h : argLoopF fuel s = .ok s') :
    s'.rest.length ≤ s.rest.length ∧ s'.stack = s.stack := by
  induction fuel generalizing s with
  | zero => simp [argLoopF] at h
  | succ fuel ih =>
      obtain ⟨rest, l, c, stk⟩ := s
      cases rest with
      | nil =>
          simp [argLoopF] at h
          subst h
          exact ⟨Nat.le_refl _, rfl⟩
      | cons ch r =>
          simp only [argLoopF] at h
          split at h
          · simp at h
            subst h
            exact ⟨Nat.le_refl _, rfl⟩
          · split at h
            · split at h
              · simp at h
                subst h
                exact ⟨skip_whitespace_length _, skip_whitespace_stack _⟩
              · split at h
                · simp at h
                · rename_i s2 hstep
                  have hlen := argStep_length_ok _ _ hstep
                  have hsk := skip_whitespace_length ⟨ch :: r, l, c, stk⟩
                  have hsks := skip_whitespace_stack ⟨ch :: r, l, c, stk⟩
                  have hih := ih _ h
                  simp only [St.rest, List.length_cons] at hsk
                  refine ⟨?_, ?_⟩
                  · have h1 := hlen.1
                    have h2 := hih.1
                    simp only [St.rest, List.length_cons]
                    omega
                  · rw [hih.2, hlen.2, hsks]
            · split at h
              · simp at h
              · rename_i s2 hstep
                have hlen := argStep_length_ok _ _ hstep
                have hih := ih _ h
                simp only [St.rest, List.length_cons] at hlen
                refine ⟨?_, ?_⟩
                · have h1 := hlen.1
                  have h2 := hih.1
                  simp only [St.rest, List.length_cons]
                  omega
                · rw [hih.2, hlen.2]

theorem argLoop_length_ok (s : St) (s' : St) (h : argLoop s = .ok s') :
    s'.rest.length ≤ s.rest.length ∧ s'.stack = s.stack :=
  argLoopF_length_ok _ s s' h

/-- Tag-name parsing (source lines 101–126): the first character must be
alphanumeric or `#` (with dedicated errors for a missing character, an
escape marker and an invalid start); the remaining characters are read by
`nameLoop`.  `tag_name` starts as the empty string plus the first char. -/
def parseTagName (s : St) : Except PyErr (String × St) :=
  match s.rest with
  | [] => .error (.dsl (mkErr s m_no_name))
  | ch :: r =>
      if ch = escChar then .error (.dsl (mkErr s m_bq_in_name))
      else if ¬ (isalnum ch ∨ ch = '#') then .error (.dsl (mkErr s m_bad_first))
      else nameLoop (consume ch r s) (String.push "" ch)

/-- After the opening `[` (and optional `/`) have been consumed: parse the
tag name, skip whitespace, run the argument loop, and require the
terminating `]` (source lines 101–175). -/
def parseNameArgs (is_closing : Bool) (s : St) : Except PyErr (Bool × String × St) :=
  match parseTagName s with
  | .error e => .error e
  | .ok (tag_name, s4) =>
      match argLoop (skip_whitespace s4) with
      | .error e => .error e
      | .ok s6 =>
          match s6.rest with
          | ']' :: r6 => .ok (is_closing, tag_name, consume ']' r6 s6)
          | _ => .error (.dsl (mkErr s6 m_no_term))

/-- The construct-parsing phase of `parse_tag` (source lines 91–175):
consume `[` (an unguarded `advance`), detect a closing marker `/`, then
parse name, arguments and terminator.  Returns the `is_closing` flag, the
tag name, and the state after the closing `]`. -/
def parseConstruct (s : St) : Except PyErr (Bool × String × St) :=
  match s.rest with
  | [] => .error .indexError
  | ch0 :: r0 =>
      match r0 with
      | '/' :: r1 => parseNameArgs true (consume '/' r1 (consume ch0 r0 s))
      | _ => parseNameArgs false (consume ch0 r0 s)

/-- Classification and stack discipline (source lines 177–194): a closing
tag must not be a single tag, needs a non-empty stack, and must match the
popped name (the failure snapshot is taken after the pop); an opening tag
is ignored if single, pushed if group, and an error otherwise. -/
def classify (single group : List String) (is_closing : Bool) (tag_name : String)
    (s : St) : Except PyErr St :=
  if is_closing then
    if single.contains tag_name then .error (.dsl (mkErr s (m_close_single tag_name)))
    else
      match s.stack with
      | [] => .error (.dsl (mkErr s (m_close_noopen tag_name)))
      | last_tag :: stk =>
          if last_tag ≠ tag_name then
            .error (.dsl (mkErr { s with stack := stk } (m_mismatch tag_name last_tag)))
          else .ok { s with stack := stk }
  else
    if single.contains tag_name then .ok s
    else if group.contains tag_name then .ok { s with stack := tag_name :: s.stack }
    else .error (.dsl (mkErr s (m_unknown tag_name)))

/-- `parse_tag` (source lines 91–194): the construct-parsing phase followed
by classification and stack discipline. -/
def parse_tag (single group : List String) (s : St) : Except PyErr St :=
  match parseConstruct s with
  | .error e => .error e
  | .ok (is_closing, tag_name, s') => classify single group is_closing tag_name s'

theorem parseTagName_length_ok (s : St) (nm : String) (s' : St)
    (h : parseTagName s = .ok (nm, s')) :
    s'.rest.length < s.rest.length ∧ s'.stack = s.stack := by
  obtain ⟨rest, l, c, stk⟩ := s
  cases rest with
  | nil => simp [parseTagName] at h
  | cons ch r =>
      simp only [parseTagName] at h
      split at h
      · simp at h
      · split at h
        · simp at h
        · obtain ⟨ha, hb⟩ := nameLoop_length_ok _ _ _ _ h
          simp at ha hb
          exact ⟨by simp; omega, by simpa using hb⟩

theorem parseNameArgs_length_ok (b : Bool) (s : St) (isc : Bool) (nm : String) (s' : St)
    (h : parseNameArgs b s = .ok (isc, nm, s')) :
    s'.rest.length < s.rest.length ∧ s'.stack = s.stack := by
  unfold parseNameArgs at h
  split at h
  · simp at h
  · rename_i tag_name s4 hname
    split at h
    · simp at h
    · rename_i s6 hargs
      split at h
      · rename_i r6 hr6
        simp at h
        obtain ⟨-, -, h⟩ := h
        subst h
        obtain ⟨h1a, h1b⟩ := parseTagName_length_ok _ _ _ hname
        have h2 := skip_whitespace_length s4
        have h2s := skip_whitespace_stack s4
        obtain ⟨h3a, h3b⟩ := argLoop_length_ok _ _ hargs
        have hr6len : s6.rest.length = r6.length + 1 := by rw [hr6]; rfl
        refine ⟨?_, ?_⟩
        · simp only [consume_rest]
          omega
        · simp only [consume_stack]
          rw [h3b, h2s, h1b]
      · simp at h

theorem parseConstruct_length_ok (s : St) (isc : Bool) (nm : String) (s' : St)
    (h : parseConstruct s = .ok (isc, nm, s')) :
    s'.rest.length < s.rest.length ∧ s'.stack = s.stack := by
  unfold parseConstruct at h
  split at h
  · simp at h
  · rename_i ch0 r0 hr0
    split at h
    · obtain ⟨ha, hb⟩ := parseNameArgs_length_ok _ _ _ _ _ h
      simp only [consume_rest, consume_stack] at ha hb
      rw [hr0]
      exact ⟨by simp; omega, hb⟩
    · obtain ⟨ha, hb⟩ := parseNameArgs_length_ok _ _ _ _ _ h
      simp only [consume_rest, consume_stack] at ha hb
      rw [hr0]
      exact ⟨by simp; omega, hb⟩

theorem classify_ok_rest (single group : List String) (isc : Bool) (nm : String)
    (s s' : St) (h : classify single group isc nm s = .ok s') :
    s'.rest = s.rest := by
  unfold classify at h
  split at h
  · split at h
    · simp at h
    · split at h
      · simp at h
      · split at h
        · simp at h
        · simp at h
          subst h
          rfl
  · split at h
    · simp at h
      subst h
      rfl
    · split at h
      · simp at h
        subst h
        rfl
      · simp at h

theorem parse_tag_length_ok (single group : List String) (s : St) (s' : St)
    (h : parse_tag single group s = .ok s') : s'.rest.length < s.rest.length := by
  unfold parse_tag at h
  split at h
  · simp at h
  · rename_i isc nm s1 hpc
    have h1 := (parseConstruct_length_ok _ _ _ _ hpc).1
    have h2 := classify_ok_rest _ _ _ _ _ _ h
    rw [h2]
    exact h1

/-- Fueled version of `checkLoop` (the `0` case is unreachable). -/
def checkLoopF (single group : List String) : Nat → St → Except PyErr St
  | 0, _ => .error .indexError
  | fuel + 1, s =>
      match s.rest with
      | [] => .ok s
      | ch :: r =>
          if ch = escChar then
            match r with
            | [] => .error (.dsl (mkErr (consume ch r s) m_dangling_top))
            | ch2 :: r2 => checkLoopF single group fuel (consume ch2 r2 (consume ch r s))
          else if ch = '[' then
            match parse_tag single group s with
            | .error e => .error e
            | .ok s' => checkLoopF single group fuel s'
          else checkLoopF single group fuel (consume ch r s)

/-- The top-level scan loop of `check` (source lines 59–77): escape
handling, tag dispatch, ordinary text; stops at end of input, returning
the final state. -/
def checkLoop (single group : List String) (s : St) : Except PyErr St :=
  checkLoopF single group (s.rest.length + 1) s

theorem checkLoopF_irrel (single group : List String) (f1 : Nat) (f2 : Nat) (s : St)
    (h1 : s.rest.length < f1) (h2 : s.rest.length < f2) :
    checkLoopF single group f1 s = checkLoopF single group f2 s := by
  induction f1 generalizing f2 s with
  | zero => omega
  | succ f1 ih =>
      cases f2 with
      | zero => omega
      | succ f2 =>
          obtain ⟨rest, l, c, stk⟩ := s
          simp only [St.rest] at h1 h2
          cases rest with
          | nil => rfl
          | cons ch r =>
              simp only [List.length_cons] at h1 h2
              simp only [checkLoopF]
              split
              · cases r with
                | nil => rfl
                | cons ch2 r2 =>
                    exact ih _ _ (by simp at h1 ⊢; omega) (by simp at h2 ⊢; omega)
              · split
                · cases hstep : parse_tag single group ⟨ch :: r, l, c, stk⟩ with
                  | error e => rfl
                  | ok s2 =>
                      have hlen := parse_tag_length_ok _ _ _ _ hstep
                      simp only [St.rest, List.length_cons] at hlen
                      exact ih _ _ (by omega) (by omega)
                · exact ih _ _ (by simp at h1 ⊢; omega) (by simp at h2 ⊢; omega)

/-- Unfolding equation: `checkLoop` is the natural loop. -/
theorem checkLoop_eq (single group : List String) (s : St) :
    checkLoop single group s =
      match s.rest with
      | [] => .ok s
      | ch :: r =>
          if ch = escChar then
            match r with
            | [] => .error (.dsl (mkErr (consume ch r s) m_dangling_top))
            | ch2 :: r2 => checkLoop single group (consume ch2 r2 (consume ch r s))
          else if ch = '[' then
            match parse_tag single group s with
            | .error e => .error e
            | .ok s' => checkLoop single group s'
          else checkLoop single group (consume ch r s) := by
  obtain ⟨rest, l, c, stk⟩ := s
  cases rest with
  | nil => rfl
  | cons ch r =>
      have hL : checkLoop single group (⟨ch :: r, l, c, stk⟩ : St)
          = checkLoopF single group (r.length + 1 + 1) ⟨ch :: r, l, c, stk⟩ := by
        simp [checkLoop]
      rw [hL]
      generalize hf : r.length + 1 = fuel
      conv_lhs => rw [checkLoopF]
      simp only []
      split
      · cases r with
        | nil => rfl
        | cons ch2 r2 =>
            simp only [List.length_cons] at hf
            refine checkLoopF_irrel _ _ _ _ _ ?_ ?_ <;> (try simp) <;> (try omega)
      · split
        · cases hstep : parse_tag single group ⟨ch :: r, l, c, stk⟩ with
          | error e => rfl
          | ok s2 =>
              have hlen := parse_tag_length_ok _ _ _ _ hstep
              simp only [St.rest, List.length_cons] at hlen
              refine checkLoopF_irrel _ _ _ _ _ ?_ ?_ <;> (try simp) <;> (try omega)
        · refine checkLoopF_irrel _ _ _ _ _ ?_ ?_ <;> (try simp) <;> (try omega)

/-- The end-of-input step of `check` (source lines 79–82): an error if any
open tags remain, success otherwise. -/
def checkFinal : Except PyErr St → Except PyErr Unit
  | .error e => .error e
  | .ok s' => if s'.stack ≠ [] then .error (.dsl (mkErr s' m_unclosed)) else .ok ()

/-- `SyntaxChecker.check`: the scan loop followed by the unclosed-tags
check. -/
def check (single group : List String) (s : St) : Except PyErr Unit :=
  checkFinal (checkLoop single group s)

/-- The state of a freshly constructed `SyntaxChecker`. -/
def initSt (code : String) : St := ⟨code.data, 1, 1, []⟩

/-- A full run of `SyntaxChecker(code, ...).check()`, as the underlying
fallible operation (mode-independent). -/
def checkCore (code : String) (single group : List String) : Except PyErr Unit :=
  check single group (initSt code)

/-- `check_syntax`: the entry point.  On success both modes return `True`
(modelled as `.ok (true, none)`).  On a detected syntax error, the raising
mode propagates the `DSLSyntaxError`; the reporting mode prints the same
line/column/message and the stack snapshot and returns `False` (modelled
as `.ok (false, some e)` where `e` is the printed diagnostic).  An
`IndexError` escapes in either mode. -/
def check_syntax (code : String) (single group : List String)
    (raise_exception : Bool) : Except PyErr (Bool × Option DSLError) :=
  match checkCore code single group with
  | .ok _ => .ok (true, none)
  | .error .indexError => .error .indexError
  | .error (.dsl e) =>
      if raise_exception then .error (.dsl e) else .ok (false, some e)

deriving instance DecidableEq for Except

/-- First character of a tag name, as the code checks it
(`ch.isalnum() or ch == '#'`). -/
def isNameStart (ch : Char) : Bool := isalnum ch || ch == '#'

/-- Subsequent characters of a tag name
(`ch.isalnum() or ch in ['#', '_', '-']`). -/
def isNameChar (ch : Char) : Bool := isalnum ch || ch == '#' || ch == '_' || ch == '-'

/-- A lexically valid tag name: nonempty, first character alphanumeric or
`#`, remaining characters alphanumeric or `#`, `_`, `-`. -/
def validName (n : String) : Bool :=
  match n.data with
  | [] => false
  | ch :: r => isNameStart ch && r.all isNameChar

/- ------------------------------------------------------------------
The surface grammar, from the spec's words (§6):

    Opening: `[` `name` (whitespace `argument`)* `]`
    Closing: `[/` `name` `]`
    `name` matches `[A-Za-z0-9#][A-Za-z0-9#_-]*`
    `argument` is either a double-quoted run (escape marker neutralizes
    the next character, including `"`) or an unquoted run (escape marker
    neutralizes the next character, including `[`; unescaped `[` is
    illegal).

`specConstructClaimed` is a recognizer for exactly this claimed grammar
(fuelled; the wrapper supplies `length + 1`).
------------------------------------------------------------------- -/

/-- Whitespace, per the spec: space, tab, newline, carriage return. -/
def specWS (c : Char) : Bool := c == ' ' || c == '\t' || c == '\n' || c == '\r'

/-- `[A-Za-z0-9#]`. -/
def specNameStart (c : Char) : Bool :=
  ('A' ≤ c && c ≤ 'Z') || ('a' ≤ c && c ≤ 'z') || ('0' ≤ c && c ≤ '9') || c == '#'

/-- `[A-Za-z0-9#_-]`. -/
def specNameChar (c : Char) : Bool := specNameStart c || c == '_' || c == '-'

/-- `name` matches `[A-Za-z0-9#][A-Za-z0-9#_-]*`. -/
def specName (l : List Char) : Bool :=
  match l with
  | [] => false
  | c :: r => specNameStart c && r.all specNameChar

/-- Consume a double-quoted run after the opening `"`: escaped pairs and
ordinary characters until the closing `"`; returns the remainder. -/
def specQuotedEnd : List Char → Option (List Char)
  | [] => none
  | c :: r =>
      if c == escChar then
        match r with
        | [] => none
        | _ :: r2 => specQuotedEnd r2
      else if c == '"' then some r
      else specQuotedEnd r

/-- Consume one unquoted-run argument (one or more items, each an escaped
pair or a plain character that is not whitespace and not one of
`]`, `[`, `"`, the escape marker); returns the remainder. -/
def specUnquotedEnd : Nat → List Char → Bool → Option (List Char)
  | _, [], seen => if seen then some [] else none
  | 0, _, _ => none
  | fuel + 1, c :: r, seen =>
      if c == escChar then
        match r with
        | [] => none
        | _ :: r2 => specUnquotedEnd fuel r2 true
      else if specWS c || c == ']' then (if seen then some (c :: r) else none)
      else if c == '[' || c == '"' then none
      else specUnquotedEnd fuel r true

/-- The `(whitespace argument)* ]` tail of a claimed construct, after the
name: each argument is preceded by at least one whitespace character. -/
def specArgsTailF : Nat → List Char → Bool
  | _, [']'] => true
  | 0, _ => false
  | fuel + 1, c :: r =>
      if specWS c then
        let r2 := (c :: r).dropWhile specWS
        match r2 with
        | '"' :: r3 =>
            match specQuotedEnd r3 with
            | some r4 => specArgsTailF fuel r4
            | none => false
        | _ =>
            match specUnquotedEnd (r2.length + 1) r2 false with
            | some r4 => specArgsTailF fuel r4
            | none => false
      else false
  | _, _ => false

/-- The claimed surface grammar for one whole construct, per the spec:
`[` name (ws argument)* `]` for opening, `[/` name `]` for closing. -/
def specConstructClaimed (l : List Char) : Bool :=
  match l with
  | '[' :: '/' :: r =>
      match r.span specNameChar with
      | (name, tail) => specName name && tail == [']']
  | '[' :: r =>
      match r.span specNameChar with
      | (name, tail) => specName name && (tail == [']'] || specArgsTailF (tail.length + 1) tail)
  | _ => false

/- ------------------------------------------------------------------
The amended surface grammar: what the Tag Construct Parser actually
accepts.  A construct is `[`, an optional `/`, a name, a section, and `]`.
The section is empty or starts with whitespace, and is any sequence of:
whitespace characters, escaped pairs, double-quoted runs, and plain
characters (anything except whitespace, `]`, `"`, `[`, and the escape
marker).  Arguments need not be separated by whitespace (two quoted runs
may abut), and closing constructs take the same section as opening ones.
------------------------------------------------------------------- -/

/-- The body of a double-quoted run: escaped pairs and characters other
than `"` and the escape marker. -/
inductive QBody : List Char → Prop
  | nil : QBody []
  | esc (c : Char) (rest : List Char) : QBody rest → QBody (escChar :: c :: rest)
  | chr (c : Char) (rest : List Char) :
      c ≠ '"' → c ≠ escChar → QBody rest → QBody (c :: rest)

/-- The argument section: any sequence of whitespace, escaped pairs,
quoted runs and plain characters. -/
inductive ArgSeq : List Char → Prop
  | nil : ArgSeq []
  | ws (c : Char) (rest : List Char) :
      is_whitespace c = true → ArgSeq rest → ArgSeq (c :: rest)
  | esc (c : Char) (rest : List Char) : ArgSeq rest → ArgSeq (escChar :: c :: rest)
  | quoted (q rest : List Char) :
      QBody q → ArgSeq rest → ArgSeq ('"' :: (q ++ '"' :: rest))
  | chr (c : Char) (rest : List Char) :
      is_whitespace c = false → c ≠ ']' → c ≠ '"' → c ≠ escChar → c ≠ '[' →
      ArgSeq rest → ArgSeq (c :: rest)

/-- The amended grammar of one construct (see the block comment above). -/
def SpecConstructAm (l : List Char) : Prop :=
  ∃ (closing : Bool) (name sect : List Char),
    l = '[' :: ((if closing then ['/'] else []) ++ name ++ sect ++ [']']) ∧
    specName name = true ∧
    ArgSeq sect ∧
    (∀ c r, sect = c :: r → is_whitespace c = true)

/-- Classification of a quoted-argument body that reaches end of input:
`closed` if an unescaped `"` occurs, `unterm` if the input ends first,
`dangling` if the input ends immediately after an escape marker. -/
inductive QScan where
  | closed
  | unterm
  | dangling
  deriving DecidableEq

/-- Scan a quote body for an unescaped closing `"`. -/
def scanQuote : List Char → QScan
  | [] => .unterm
  | c :: r =>
      if c = escChar then
        match r with
        | [] => .dangling
        | _ :: r2 => scanQuote r2
      else if c = '"' then .closed
      else scanQuote r

/- ------------------------------------------------------------------
Well-formed documents (for the balance property): properly nested,
non-interleaved opening/closing pairs of group tags and any number of
single tags, with no other text.
------------------------------------------------------------------- -/

/-- A forest of tag constructs: empty, a single tag followed by more, or a
a group tag wrapping a nested forest, followed by more. -/
inductive Doc where
  | nil : Doc
  | singleTag (n : String) (next : Doc) : Doc
  | group (n : String) (inner : Doc) (next : Doc) : Doc

/-- Render a document as input text: `[n]` for single tags, `[n]…[/n]`
for group tags. -/
def renderDoc : Doc → List Char
  | .nil => []
  | .singleTag n next => '[' :: n.data ++ ']' :: renderDoc next
  | .group n inner next =>
      '[' :: n.data ++ ']' :: (renderDoc inner ++ '[' :: '/' :: n.data ++ ']' :: renderDoc next)

/-- A document is well formed for the given tag sets when every single
tag's name is a lexically valid member of `single` and every group tag's
name is a lexically valid member of `group`. -/
def wfDoc (single group : List String) : Doc → Prop
  | .nil => True
  | .singleTag n next => validName n = true ∧ n ∈ single ∧ wfDoc single group next
  | .group n inner next =>
      validName n = true ∧ n ∈ group ∧ wfDoc single group inner ∧ wfDoc single group next

/- Character-class facts used throughout. -/

theorem ws_chars (c : Char) (h : is_whitespace c = true) :
    c = ' ' ∨ c = '\t' ∨ c = '\n' ∨ c = '\r' := by
  simpa [is_whitespace] using h

theorem isNameChar_prop (ch : Char) :
    isNameChar ch = true ↔ (isalnum ch = true ∨ ch = '#' ∨ ch = '_' ∨ ch = '-') := by
  simp [isNameChar, or_assoc]

theorem isNameStart_prop (ch : Char) :
    isNameStart ch = true ↔ (isalnum ch = true ∨ ch = '#') := by
  simp [isNameStart]

theorem isNameStart_isNameChar (ch : Char) (h : isNameStart ch = true) :
    isNameChar ch = true := by
  rcases (isNameStart_prop ch).1 h with ha | rfl
  · simp [isNameChar, ha]
  · decide

theorem isNameChar_ne (ch : Char) (h : isNameChar ch = true) :
    ch ≠ ']' ∧ ch ≠ escChar ∧ ch ≠ '\n' ∧ ch ≠ '/' ∧ ch ≠ '[' ∧ ch ≠ '"' := by
  rcases (isNameChar_prop ch).1 h with ha | rfl | rfl | rfl
  · refine ⟨?_, ?_, ?_, ?_, ?_, ?_⟩ <;> (rintro rfl; revert ha; decide)
  all_goals exact ⟨by decide, by decide, by decide, by decide, by decide, by decide⟩

theorem isNameChar_not_ws (ch : Char) (h : isNameChar ch = true) :
    is_whitespace ch = false := by
  by_contra hws
  simp only [Bool.not_eq_false] at hws
  rcases ws_chars ch hws with rfl | rfl | rfl | rfl <;> revert h <;> decide

theorem contains_iff_mem (l : List String) (a : String) : l.contains a = true ↔ a ∈ l := by
  simp

theorem push_append (a : String) (ch : Char) (l2 : List Char) :
    (a.push ch) ++ (⟨l2⟩ : String) = a ++ ⟨ch :: l2⟩ := by
  obtain ⟨al⟩ := a
  show String.mk ((al ++ [ch]) ++ l2) = String.mk (al ++ ch :: l2)
  rw [List.append_assoc]
  rfl

/-- `consume` of a non-newline character moves one column. -/
theorem consume_not_nl (ch : Char) (r : List Char) (s : St) (h : ch ≠ '\n') :
    consume ch r s = ⟨r, s.line, s.col + 1, s.stack⟩ := by
  simp [consume, bumpLC, h]

/-- Running `nameLoop` over a run of name characters followed by a
terminator (whitespace or `]`): the run is consumed into the accumulator
and the terminator is left unconsumed. -/
theorem nameLoop_run (run : List Char) (d : Char) (r : List Char) (acc : String)
    (l c : Nat) (stk : List String)
    (hrun : run.all isNameChar = true) (hd : is_whitespace d = true ∨ d = ']') :
    nameLoop ⟨run ++ d :: r, l, c, stk⟩ acc =
      .ok (acc ++ ⟨run⟩, ⟨d :: r, l, c + run.length, stk⟩) := by
  induction run generalizing acc c with
  | nil =>
      rw [nameLoop_eq]
      simp only [List.nil_append]
      rw [if_pos]
      · have : acc ++ (⟨[]⟩ : String) = acc := by
          obtain ⟨al⟩ := acc
          show String.mk (al ++ []) = String.mk al
          rw [List.append_nil]
        rw [this]
        rfl
      · rcases hd with h | h
        · exact Or.inl h
        · exact Or.inr h
  | cons ch run' ih =>
      simp only [List.all_cons, Bool.and_eq_true] at hrun
      obtain ⟨hch, hrun'⟩ := hrun
      obtain ⟨hne1, hne2, hne3, hne4, hne5, hne6⟩ := isNameChar_ne ch hch
      rw [nameLoop_eq]
      simp only [List.cons_append]
      rw [if_neg, if_neg, if_neg]
      · rw [consume_not_nl ch _ _ hne3]
        have := ih (acc.push ch) (c + 1) hrun'
        simp only [St.line, St.col, St.stack] at this ⊢
        rw [this, push_append]
        have harith : c + 1 + run'.length = c + (run'.length + 1) := by omega
        rw [harith]
        rfl
      · exact not_not_intro ((isNameChar_prop ch).1 hch)
      · exact hne2
      · push_neg
        exact ⟨by simp [isNameChar_not_ws ch hch], hne1⟩

/-- `parseTagName` on a lexically valid name followed by a terminator. -/
theorem parseTagName_run (n : String) (hn : validName n = true) (d : Char)
    (r : List Char) (l c : Nat) (stk : List String)
    (hd : is_whitespace d = true ∨ d = ']') :
    parseTagName ⟨n.data ++ d :: r, l, c, stk⟩ =
      .ok (n, ⟨d :: r, l, c + n.length, stk⟩) := by
  obtain ⟨nl⟩ := n
  unfold validName at hn
  simp only at hn
  match nl, hn with
  | ch :: run, hn =>
      simp only [Bool.and_eq_true] at hn
      obtain ⟨hstart, hrun⟩ := hn
      have hch := isNameStart_isNameChar ch hstart
      obtain ⟨-, hne2, hne3, -, -, -⟩ := isNameChar_ne ch hch
      unfold parseTagName
      simp only [List.cons_append]
      rw [if_neg, if_neg]
      · rw [consume_not_nl ch _ _ hne3]
        have := nameLoop_run run d r (String.push "" ch) l (c + 1) stk hrun hd
        simp only [St.line, St.col, St.stack] at this ⊢
        rw [this]
        have hpush : (String.push "" ch) ++ (⟨run⟩ : String) = ⟨ch :: run⟩ := by
          show String.mk (([] ++ [ch]) ++ run) = String.mk (ch :: run)
          simp
        rw [hpush]
        have hlen : (String.mk (ch :: run)).length = run.length + 1 := by
          simp [String.length]
        rw [hlen]
        have harith : c + 1 + run.length = c + (run.length + 1) := by omega
        rw [harith]
      · exact not_not_intro ((isNameStart_prop ch).1 hstart)
      · exact hne2

theorem validName_head (n : String) (hn : validName n = true) :
    ∃ ch run, n.data = ch :: run ∧ isNameStart ch = true ∧ run.all isNameChar = true := by
  unfold validName at hn
  match hd : n.data, hn with
  | ch :: run, hn =>
      have hn2 : (isNameStart ch && run.all isNameChar) = true := hn
      simp only [Bool.and_eq_true] at hn2
      exact ⟨ch, run, rfl, hn2.1, hn2.2⟩

theorem argLoop_nil (s : St) (h : s.rest = []) : argLoop s = .ok s := by
  rw [argLoop_eq, h]

theorem argLoop_rbracket (s : St) (r : List Char) (h : s.rest = ']' :: r) :
    argLoop s = .ok s := by
  rw [argLoop_eq, h]
  simp

/-- `parseConstruct` on a bare opening construct `[n]`. -/
theorem parseConstruct_bare_open (n : String) (hn : validName n = true)
    (r : List Char) (l c : Nat) (stk : List String) :
    parseConstruct ⟨'[' :: (n.data ++ ']' :: r), l, c, stk⟩ =
      .ok (false, n, ⟨r, l, c + n.length + 2, stk⟩) := by
  obtain ⟨ch, run, hnd, hstart, hrun⟩ := validName_head n hn
  have hne4 : ch ≠ '/' := (isNameChar_ne ch (isNameStart_isNameChar ch hstart)).2.2.2.1
  have h1 : parseTagName ⟨n.data ++ ']' :: r, l, c + 1, stk⟩ =
      .ok (n, ⟨']' :: r, l, c + 1 + n.length, stk⟩) :=
    parseTagName_run n hn ']' r l (c + 1) stk (Or.inr rfl)
  have h2 : skip_whitespace ⟨']' :: r, l, c + 1 + n.length, stk⟩ =
      ⟨']' :: r, l, c + 1 + n.length, stk⟩ :=
    skip_whitespace_not_ws _ ']' r rfl (by decide)
  have h3 : argLoop ⟨']' :: r, l, c + 1 + n.length, stk⟩ =
      .ok ⟨']' :: r, l, c + 1 + n.length, stk⟩ :=
    argLoop_rbracket _ r rfl
  unfold parseConstruct
  simp only []
  rw [hnd]
  split
  · rename_i r1 heq
    exact absurd (by injection heq) hne4
  · rw [consume_not_nl '[' _ _ (by decide)]
    unfold parseNameArgs
    simp only [St.line, St.col, St.stack]
    rw [← hnd, h1]
    simp only []
    rw [h2, h3]
    simp only []
    rw [consume_not_nl ']' _ _ (by decide)]
    simp only [St.line, St.col, St.stack]
    have harith : c + 1 + n.length + 1 = c + n.length + 2 := by omega
    rw [harith]

/-- `parseConstruct` on a bare closing construct `[/n]`. -/
theorem parseConstruct_bare_close (n : String) (hn : validName n = true)
    (r : List Char) (l c : Nat) (stk : List String) :
    parseConstruct ⟨'[' :: '/' :: (n.data ++ ']' :: r), l, c, stk⟩ =
      .ok (true, n, ⟨r, l, c + n.length + 3, stk⟩) := by
  have h1 : parseTagName ⟨n.data ++ ']' :: r, l, c + 2, stk⟩ =
      .ok (n, ⟨']' :: r, l, c + 2 + n.length, stk⟩) :=
    parseTagName_run n hn ']' r l (c + 2) stk (Or.inr rfl)
  have h2 : skip_whitespace ⟨']' :: r, l, c + 2 + n.length, stk⟩ =
      ⟨']' :: r, l, c + 2 + n.length, stk⟩ :=
    skip_whitespace_not_ws _ ']' r rfl (by decide)
  have h3 : argLoop ⟨']' :: r, l, c + 2 + n.length, stk⟩ =
      .ok ⟨']' :: r, l, c + 2 + n.length, stk⟩ :=
    argLoop_rbracket _ r rfl
  unfold parseConstruct
  simp only []
  rw [consume_not_nl '[' _ _ (by decide), consume_not_nl '/' _ _ (by decide)]
  unfold parseNameArgs
  simp only [St.line, St.col, St.stack]
  rw [h1]
  simp only []
  rw [h2, h3]
  simp only []
  rw [consume_not_nl ']' _ _ (by decide)]
  simp only [St.line, St.col, St.stack]
  have harith : c + 2 + n.length + 1 = c + n.length + 3 := by omega
  rw [harith]

theorem classify_open_single (single group : List String) (n : String) (s : St)
    (hs : single.contains n = true) : classify single group false n s = .ok s := by
  have hs2 : n ∈ single := (contains_iff_mem _ _).1 hs
  simp [classify, hs2]

theorem classify_open_group (single group : List String) (n : String) (s : St)
    (hs : single.contains n = false) (hg : group.contains n = true) :
    classify single group false n s = .ok { s with stack := n :: s.stack } := by
  have hs2 : n ∉ single := by
    intro hmem
    rw [(contains_iff_mem single n).2 hmem] at hs
    simp at hs
  have hg2 : n ∈ group := (contains_iff_mem _ _).1 hg
  simp [classify, hs2, hg2]

theorem classify_close_single (single group : List String) (n : String) (s : St)
    (hs : single.contains n = true) :
    classify single group true n s = .error (.dsl (mkErr s (m_close_single n))) := by
  have hs2 : n ∈ single := (contains_iff_mem _ _).1 hs
  simp [classify, hs2]

theorem classify_close_match (single group : List String) (n : String) (s : St)
    (stk' : List String) (hs : single.contains n = false) (hstk : s.stack = n :: stk') :
    classify single group true n s = .ok { s with stack := stk' } := by
  have hs2 : n ∉ single := by
    intro hmem
    rw [(contains_iff_mem single n).2 hmem] at hs
    simp at hs
  simp [classify, hs2, hstk]

theorem classify_close_mismatch (single group : List String) (n m : String) (s : St)
    (stk' : List String) (hs : single.contains n = false) (hstk : s.stack = m :: stk')
    (hne : m ≠ n) :
    classify single group true n s =
      .error (.dsl ⟨s.line, s.col, m_mismatch n m, stk'⟩) := by
  have hs2 : n ∉ single := by
    intro hmem
    rw [(contains_iff_mem single n).2 hmem] at hs
    simp at hs
  simp [classify, hs2, hstk, hne, mkErr]

theorem parse_tag_open_single (single group : List String) (n : String)
    (hn : validName n = true) (hs : single.contains n = true)
    (r : List Char) (l c : Nat) (stk : List String) :
    parse_tag single group ⟨'[' :: (n.data ++ ']' :: r), l, c, stk⟩ =
      .ok ⟨r, l, c + n.length + 2, stk⟩ := by
  unfold parse_tag
  rw [parseConstruct_bare_open n hn]
  exact classify_open_single _ _ _ _ hs

theorem parse_tag_open_group (single group : List String) (n : String)
    (hn : validName n = true) (hs : single.contains n = false)
    (hg : group.contains n = true) (r : List Char) (l c : Nat) (stk : List String) :
    parse_tag single group ⟨'[' :: (n.data ++ ']' :: r), l, c, stk⟩ =
      .ok ⟨r, l, c + n.length + 2, n :: stk⟩ := by
  unfold parse_tag
  rw [parseConstruct_bare_open n hn]
  exact classify_open_group _ _ _ _ hs hg

theorem parse_tag_close_match (single group : List String) (n : String)
    (hn : validName n = true) (hs : single.contains n = false)
    (r : List Char) (l c : Nat) (stk' : List String) :
    parse_tag single group ⟨'[' :: '/' :: (n.data ++ ']' :: r), l, c, n :: stk'⟩ =
      .ok ⟨r, l, c + n.length + 3, stk'⟩ := by
  unfold parse_tag
  rw [parseConstruct_bare_close n hn]
  exact classify_close_match _ _ _ _ _ hs rfl

theorem parse_tag_close_single (single group : List String) (n : String)
    (hn : validName n = true) (hs : single.contains n = true)
    (r : List Char) (l c : Nat) (stk : List String) :
    parse_tag single group ⟨'[' :: '/' :: (n.data ++ ']' :: r), l, c, stk⟩ =
      .error (.dsl ⟨l, c + n.length + 3, m_close_single n, stk⟩) := by
  unfold parse_tag
  rw [parseConstruct_bare_close n hn]
  exact classify_close_single _ _ _ _ hs

theorem parse_tag_close_mismatch (single group : List String) (n m : String)
    (hn : validName n = true) (hs : single.contains n = false) (hne : m ≠ n)
    (r : List Char) (l c : Nat) (stk' : List String) :
    parse_tag single group ⟨'[' :: '/' :: (n.data ++ ']' :: r), l, c, m :: stk'⟩ =
      .error (.dsl ⟨l, c + n.length + 3, m_mismatch n m, stk'⟩) := by
  unfold parse_tag
  rw [parseConstruct_bare_close n hn]
  exact classify_close_mismatch _ _ _ _ _ _ hs rfl hne

theorem checkLoop_nil (single group : List String) (s : St) (h : s.rest = []) :
    checkLoop single group s = .ok s := by
  rw [checkLoop_eq, h]

theorem checkLoop_tag_ok (single group : List String) (s s2 : St) (tail : List Char)
    (hrest : s.rest = '[' :: tail) (h : parse_tag single group s = .ok s2) :
    checkLoop single group s = checkLoop single group s2 := by
  rw [checkLoop_eq, hrest]
  simp only []
  rw [h, if_neg (show ¬('[' = escChar) from by decide)]
  simp

theorem checkLoop_tag_err (single group : List String) (s : St) (e : PyErr)
    (tail : List Char) (hrest : s.rest = '[' :: tail)
    (h : parse_tag single group s = .error e) :
    checkLoop single group s = .error e := by
  rw [checkLoop_eq, hrest]
  simp only []
  rw [h, if_neg (show ¬('[' = escChar) from by decide)]
  simp

/-- Scanning a well-formed document advances the scanner across its text
with no net stack effect and no failure. -/
theorem renderDoc_scan (single group : List String)
    (hdisj : ∀ x ∈ group, x ∉ single) (d : Doc) :
    ∀ (_ : wfDoc single group d) (rest : List Char) (l c : Nat) (stk : List String),
      ∃ l2 c2,
        checkLoop single group ⟨renderDoc d ++ rest, l, c, stk⟩ =
          checkLoop single group ⟨rest, l2, c2, stk⟩ := by
  induction d with
  | nil =>
      intro _ rest l c stk
      exact ⟨l, c, by simp [renderDoc]⟩
  | singleTag n next ih =>
      intro hwf rest l c stk
      obtain ⟨hvn, hmem, hwf2⟩ := hwf
      have hs : single.contains n = true := (contains_iff_mem _ _).2 hmem
      have hpt := parse_tag_open_single single group n hvn hs
        (renderDoc next ++ rest) l c stk
      have hstep := checkLoop_tag_ok single group
        ⟨'[' :: (n.data ++ ']' :: (renderDoc next ++ rest)), l, c, stk⟩
        ⟨renderDoc next ++ rest, l, c + n.length + 2, stk⟩
        (n.data ++ ']' :: (renderDoc next ++ rest)) rfl hpt
      obtain ⟨l2, c2, hih⟩ := ih hwf2 rest l (c + n.length + 2) stk
      refine ⟨l2, c2, ?_⟩
      have hshape : renderDoc (Doc.singleTag n next) ++ rest =
          '[' :: (n.data ++ ']' :: (renderDoc next ++ rest)) := by
        simp [renderDoc]
      rw [hshape, hstep, hih]
  | group n inner next ih1 ih2 =>
      intro hwf rest l c stk
      obtain ⟨hvn, hmem, hwfi, hwfn⟩ := hwf
      have hg : group.contains n = true := (contains_iff_mem _ _).2 hmem
      have hnin : n ∉ single := hdisj n hmem
      have hs : single.contains n = false := by
        cases h2 : single.contains n with
        | false => rfl
        | true => exact absurd ((contains_iff_mem _ _).1 h2) hnin
      have hpt1 := parse_tag_open_group single group n hvn hs hg
        (renderDoc inner ++ ('[' :: '/' :: (n.data ++ ']' :: (renderDoc next ++ rest))))
        l c stk
      have hstep1 := checkLoop_tag_ok single group
        ⟨'[' :: (n.data ++ ']' ::
          (renderDoc inner ++ ('[' :: '/' :: (n.data ++ ']' :: (renderDoc next ++ rest))))),
          l, c, stk⟩
        ⟨renderDoc inner ++ ('[' :: '/' :: (n.data ++ ']' :: (renderDoc next ++ rest))),
          l, c + n.length + 2, n :: stk⟩
        _ rfl hpt1
      obtain ⟨l2, c2, hinner⟩ := ih1 hwfi
        ('[' :: '/' :: (n.data ++ ']' :: (renderDoc next ++ rest)))
        l (c + n.length + 2) (n :: stk)
      have hpt2 := parse_tag_close_match single group n hvn hs
        (renderDoc next ++ rest) l2 c2 stk
      have hstep2 := checkLoop_tag_ok single group
        ⟨'[' :: '/' :: (n.data ++ ']' :: (renderDoc next ++ rest)), l2, c2, n :: stk⟩
        ⟨renderDoc next ++ rest, l2, c2 + n.length + 3, stk⟩
        _ rfl hpt2
      obtain ⟨l3, c3, hnext⟩ := ih2 hwfn rest l2 (c2 + n.length + 3) stk
      refine ⟨l3, c3, ?_⟩
      have hshape : renderDoc (Doc.group n inner next) ++ rest =
          '[' :: (n.data ++ ']' ::
            (renderDoc inner ++
              ('[' :: '/' :: (n.data ++ ']' :: (renderDoc next ++ rest))))) := by
        simp [renderDoc]
      rw [hshape, hstep1, hinner, hstep2, hnext]

/-- If a quote body never closes (`scanQuote ≠ closed`), `quoteLoop` fails
with the unterminated-quote message, or with the lone-escape-in-quote
message when the input ends right after an escape marker. -/
theorem quoteLoop_not_closed (rl : List Char) : ∀ (s : St), s.rest = rl →
    scanQuote rl ≠ .closed →
    ∃ l c, quoteLoop s = .error (.dsl ⟨l, c,
      (if scanQuote rl = QScan.unterm then m_unterm_quote else m_dangling_quote),
      s.stack⟩) := by
  induction rl using scanQuote.induct with
  | case1 =>
      intro s hrest _
      rw [quoteLoop_eq, hrest]
      exact ⟨s.line, s.col, by simp [scanQuote, mkErr]⟩
  | case2 =>
      intro s hrest _
      rw [quoteLoop_eq, hrest]
      simp only []
      rw [if_pos trivial]
      refine ⟨(consume escChar [] s).line, (consume escChar [] s).col, ?_⟩
      have hscan : scanQuote [escChar] = QScan.dangling := by decide
      rw [hscan]
      simp [mkErr]
  | case3 ch r ih =>
      intro s hrest h
      rw [quoteLoop_eq, hrest]
      simp only []
      rw [if_pos trivial]
      have hscan : scanQuote (escChar :: ch :: r) = scanQuote r := by
        conv_lhs => rw [scanQuote.eq_def]
        simp
      rw [hscan] at h ⊢
      obtain ⟨l2, c2, hih⟩ := ih (consume ch r (consume escChar (ch :: r) s)) (by simp) h
      refine ⟨l2, c2, ?_⟩
      rw [hih]
      simp
  | case4 r hne =>
      intro s hrest h
      exfalso
      apply h
      rw [scanQuote.eq_def]
      simp
      exact fun hx => absurd hx hne
  | case5 ch r hne1 hne2 ih =>
      intro s hrest h
      rw [quoteLoop_eq, hrest]
      simp only []
      rw [if_neg hne1, if_neg hne2]
      have hscan : scanQuote (ch :: r) = scanQuote r := by
        conv_lhs => rw [scanQuote.eq_def]
        simp only []
        rw [if_neg hne1, if_neg hne2]
      rw [hscan] at h ⊢
      obtain ⟨l2, c2, hih⟩ := ih (consume ch r s) (by simp) h
      refine ⟨l2, c2, ?_⟩
      rw [hih]
      simp

theorem data_mk (l : List Char) : (String.mk l).data = l := rfl

theorem checkLoopF_ok_rest (single group : List String) (fuel : Nat) (s s' : St)
    (h : checkLoopF single group fuel s = .ok s') : s'.rest = [] := by
  induction fuel generalizing s with
  | zero => simp [checkLoopF] at h
  | succ fuel ih =>
      obtain ⟨rest, l, c, stk⟩ := s
      cases rest with
      | nil =>
          simp [checkLoopF] at h
          subst h
          rfl
      | cons ch r =>
          simp only [checkLoopF] at h
          split at h
          · split at h
            · simp at h
            · exact ih _ h
          · split at h
            · split at h
              · simp at h
              · exact ih _ h
            · exact ih _ h

theorem checkLoop_ok_rest (single group : List String) (s s' : St)
    (h : checkLoop single group s = .ok s') : s'.rest = [] :=
  checkLoopF_ok_rest single group _ s s' h

theorem argLoop_step_err (s : St) (ch : Char) (r : List Char) (e : PyErr)
    (hrest : s.rest = ch :: r) (h1 : ch ≠ ']') (h2 : is_whitespace ch = false)
    (h : argStep s = .error e) : argLoop s = .error e := by
  rw [argLoop_eq, hrest]
  simp only []
  rw [if_neg h1, if_neg (by simp [h2]), h]

/-- `parseConstruct` on `[n "…` where the quoted argument never closes:
the quote-loop failure propagates out. -/
theorem parseConstruct_unterm (n : String) (hn : validName n = true) (qs : List Char)
    (hq : scanQuote qs ≠ .closed) (l c : Nat) (stk : List String) :
    ∃ el ec, parseConstruct ⟨'[' :: (n.data ++ ' ' :: '"' :: qs), l, c, stk⟩ =
      .error (.dsl ⟨el, ec,
        (if scanQuote qs = QScan.unterm then m_unterm_quote else m_dangling_quote),
        stk⟩) := by
  obtain ⟨ch, run, hnd, hstart, hrun⟩ := validName_head n hn
  have hne4 : ch ≠ '/' := (isNameChar_ne ch (isNameStart_isNameChar ch hstart)).2.2.2.1
  have h1 : parseTagName ⟨n.data ++ ' ' :: '"' :: qs, l, c + 1, stk⟩ =
      .ok (n, ⟨' ' :: '"' :: qs, l, c + 1 + n.length, stk⟩) :=
    parseTagName_run n hn ' ' ('"' :: qs) l (c + 1) stk (Or.inl (by decide))
  have h2 : skip_whitespace ⟨' ' :: '"' :: qs, l, c + 1 + n.length, stk⟩ =
      ⟨'"' :: qs, l, c + 1 + n.length + 1, stk⟩ := by
    rw [skip_whitespace_cons _ ' ' ('"' :: qs) rfl, if_pos (by decide)]
    rw [consume_not_nl ' ' _ _ (by decide)]
    exact skip_whitespace_not_ws _ '"' qs rfl (by decide)
  obtain ⟨el, ec, hquote⟩ :=
    quoteLoop_not_closed qs ⟨qs, l, c + 1 + n.length + 1 + 1, stk⟩ rfl hq
  have h3 : argStep ⟨'"' :: qs, l, c + 1 + n.length + 1, stk⟩ =
      .error (.dsl ⟨el, ec,
        (if scanQuote qs = QScan.unterm then m_unterm_quote else m_dangling_quote),
        stk⟩) := by
    unfold argStep
    simp only []
    rw [if_pos trivial]
    rw [consume_not_nl '"' _ _ (by decide)]
    simp only [St.line, St.col, St.stack]
    exact hquote
  have h4 := argLoop_step_err _ '"' qs _ rfl (by decide) (by decide) h3
  refine ⟨el, ec, ?_⟩
  unfold parseConstruct
  simp only []
  rw [hnd]
  split
  · rename_i r1 heq
    exact absurd (by injection heq) hne4
  · rw [consume_not_nl '[' _ _ (by decide)]
    unfold parseNameArgs
    simp only [St.line, St.col, St.stack]
    rw [← hnd, h1]
    simp only []
    rw [h2, h4]

/-- C2: for every pair of disjoint tag-name sets and every input built
only from properly nested, non-interleaved opening/closing pairs of group
tags and any number of single tags (with no other text), `check` returns
true. -/
theorem claim_balance_property (single group : List String) (d : Doc)
    (hdisj : ∀ x ∈ group, x ∉ single) (hwf : wfDoc single group d) :
    check_syntax ⟨renderDoc d⟩ single group false = .ok (true, none) := by
  obtain ⟨l2, c2, hscan⟩ := renderDoc_scan single group hdisj d hwf [] 1 1 []
  rw [List.append_nil] at hscan
  rw [checkLoop_nil single group ⟨[], l2, c2, []⟩ rfl] at hscan
  unfold check_syntax checkCore check initSt
  rw [data_mk, hscan]
  rfl

theorem claim_balance_property_witness :
    check_syntax ⟨renderDoc (Doc.group "b" (Doc.singleTag "br" Doc.nil) Doc.nil)⟩
      ["br"] ["b"] false = .ok (true, none) :=
  claim_balance_property ["br"] ["b"] (Doc.group "b" (Doc.singleTag "br" Doc.nil) Doc.nil)
    (by decide) ⟨by decide, by decide, ⟨by decide, by decide, trivial⟩, trivial⟩

/-- C3: `check` succeeds only if the scan reaches end of input with an
empty stack, and a scan that reaches end of input with a non-empty stack
makes `check` fail with the unclosed-tags error carrying that stack. -/
theorem claim_stack_emptiness (code : String) (single group : List String) :
    (checkCore code single group = .ok () →
      ∃ s', checkLoop single group (initSt code) = .ok s' ∧
        s'.stack = [] ∧ s'.rest = []) ∧
    (∀ s' : St, checkLoop single group (initSt code) = .ok s' → s'.stack ≠ [] →
      checkCore code single group =
        .error (.dsl ⟨s'.line, s'.col, m_unclosed, s'.stack⟩)) := by
  constructor
  · intro h
    unfold checkCore check at h
    cases hcl : checkLoop single group (initSt code) with
    | error e =>
        rw [hcl] at h
        simp [checkFinal] at h
    | ok s' =>
        rw [hcl] at h
        by_cases hstk : s'.stack = []
        · exact ⟨s', rfl, hstk, checkLoop_ok_rest single group _ s' hcl⟩
        · simp [checkFinal, hstk] at h
  · intro s' hcl hne
    unfold checkCore check
    rw [hcl]
    simp [checkFinal, hne, mkErr]

theorem claim_stack_emptiness_witness :
    checkCore "[b]" [] ["b"] = .error (.dsl ⟨1, 4, m_unclosed, ["b"]⟩) :=
  (claim_stack_emptiness "[b]" [] ["b"]).2 ⟨[], 1, 4, ["b"]⟩ (by decide) (by decide)

/-- C4: for every two distinct lexically valid group-tag names `A`, `B`
not in the single set, the input `[A][B][/A][/B]` fails with the
mismatched-close error (never succeeds), whose message names both the
closing tag `A` and the popped tag `B`, with stack snapshot `[A]`. -/
theorem claim_mismatch_detection (single group : List String) (A B : String)
    (hA : validName A = true) (hB : validName B = true) (hAB : A ≠ B)
    (hAg : A ∈ group) (hBg : B ∈ group) (hAs : A ∉ single) (hBs : B ∉ single) :
    ∃ col, checkCore
        ⟨'[' :: (A.data ++ ']' :: ('[' :: (B.data ++ ']' ::
          ('[' :: '/' :: (A.data ++ ']' :: ('[' :: '/' :: (B.data ++ [']'])))))))⟩
        single group
      = .error (.dsl ⟨1, col, m_mismatch A B, [A]⟩) := by
  have hAg2 : group.contains A = true := (contains_iff_mem _ _).2 hAg
  have hBg2 : group.contains B = true := (contains_iff_mem _ _).2 hBg
  have hAs2 : single.contains A = false := by
    cases h2 : single.contains A with
    | false => rfl
    | true => exact absurd ((contains_iff_mem _ _).1 h2) hAs
  have hBs2 : single.contains B = false := by
    cases h2 : single.contains B with
    | false => rfl
    | true => exact absurd ((contains_iff_mem _ _).1 h2) hBs
  have hBA : B ≠ A := fun h => hAB h.symm
  have hpt1 := parse_tag_open_group single group A hA hAs2 hAg2
    ('[' :: (B.data ++ ']' :: ('[' :: '/' :: (A.data ++ ']' ::
      ('[' :: '/' :: (B.data ++ [']'])))))) 1 1 []
  have hstep1 := checkLoop_tag_ok single group _ _ _ rfl hpt1
  have hpt2 := parse_tag_open_group single group B hB hBs2 hBg2
    ('[' :: '/' :: (A.data ++ ']' :: ('[' :: '/' :: (B.data ++ [']']))))
    1 (1 + A.length + 2) [A]
  have hstep2 := checkLoop_tag_ok single group _ _ _ rfl hpt2
  have hpt3 := parse_tag_close_mismatch single group A B hA hAs2 hBA
    ('[' :: '/' :: (B.data ++ [']'])) 1 (1 + A.length + 2 + B.length + 2) [A]
  have hstep3 := checkLoop_tag_err single group _ _ _ rfl hpt3
  refine ⟨1 + A.length + 2 + B.length + 2 + A.length + 3, ?_⟩
  unfold checkCore check initSt
  rw [data_mk, hstep1, hstep2, hstep3]
  rfl

theorem claim_mismatch_detection_witness :
    ∃ col, checkCore
        ⟨'[' :: ("a".data ++ ']' :: ('[' :: ("b".data ++ ']' ::
          ('[' :: '/' :: ("a".data ++ ']' :: ('[' :: '/' :: ("b".data ++ [']'])))))))⟩
        [] ["a", "b"]
      = .error (.dsl ⟨1, col, m_mismatch "a" "b", ["a"]⟩) :=
  claim_mismatch_detection [] ["a", "b"] "a" "b" (by decide) (by decide) (by decide)
    (by decide) (by decide) (by decide) (by decide)

/-- C6 counterexample: when the unterminated quoted argument's content
ends with the escape marker, `check` fails with the lone-escape-in-quote
message, which is a different message than the unterminated-quoted-argument
one, so the claim as stated (always `UnterminatedQuotedArgument`) is
false on the code. -/
theorem claim_unterminated_quote_cex :
    checkCore "[b \"x\x60" [] [] = .error (.dsl ⟨1, 7, m_dangling_quote, []⟩) ∧
    m_dangling_quote ≠ m_unterm_quote := by
  constructor
  · decide
  · decide

/-- C6 (amended): for every input opening a double-quoted argument whose
content reaches end of input without an unescaped closing `"`, `check`
fails; the failure is the unterminated-quoted-argument error unless the
content ends with a trailing unescaped escape marker, in which case it is
the lone-escape-in-quote error. -/
theorem claim_unterminated_quote (single group : List String) (n : String)
    (qs : List Char) (hn : validName n = true) (hq : scanQuote qs ≠ .closed) :
    ∃ l c, checkCore ⟨'[' :: (n.data ++ ' ' :: '"' :: qs)⟩ single group =
      .error (.dsl ⟨l, c,
        (if scanQuote qs = QScan.unterm then m_unterm_quote else m_dangling_quote),
        []⟩) := by
  obtain ⟨el, ec, hpc⟩ := parseConstruct_unterm n hn qs hq 1 1 []
  have hpt : parse_tag single group ⟨'[' :: (n.data ++ ' ' :: '"' :: qs), 1, 1, []⟩ =
      .error (.dsl ⟨el, ec,
        (if scanQuote qs = QScan.unterm then m_unterm_quote else m_dangling_quote),
        []⟩) := by
    unfold parse_tag
    rw [hpc]
  have hcl := checkLoop_tag_err single group _ _ _ rfl hpt
  refine ⟨el, ec, ?_⟩
  unfold checkCore check initSt
  rw [data_mk, hcl]
  rfl

theorem claim_unterminated_quote_witness :
    ∃ l c, checkCore ⟨'[' :: ("b".data ++ ' ' :: '"' :: ['x', '\x60'])⟩ [] [] =
      .error (.dsl ⟨l, c,
        (if scanQuote ['x', '\x60'] = QScan.unterm then m_unterm_quote
         else m_dangling_quote), []⟩) :=
  claim_unterminated_quote [] [] "b" ['x', '\x60'] (by decide) (by decide)

/-- C7: the reporting mode and the throwing mode expose the identical
underlying outcome: success is `true` in both; a detected syntax error is
returned as `false` plus the printed diagnostic in reporting mode and
thrown as the same structured value in throwing mode; an `IndexError`
escapes identically in both. -/
theorem claim_error_mode_equivalence (code : String) (single group : List String) :
    ( check_syntax code single group false = .ok (true, none) ↔
      check_syntax code single group true = .ok (true, none)) ∧
    (∀ e : DSLError, check_syntax code single group false = .ok (false, some e) ↔
      check_syntax code single group true = .error (.dsl e)) ∧
    (∀ e : PyErr, check_syntax code single group false = .error e ↔
      ( check_syntax code single group true = .error e ∧ e = .indexError)) := by
  unfold check_syntax
  cases checkCore code single group with
  | ok u => simp
  | error e =>
      cases e with
      | indexError => simp
      | dsl d => simp

/-- C8 is refuted by the code: on the input `"[a b "` (an argument, then
whitespace, then end of input), the argument loop falls through the
whitespace-skip with no character left and the unquoted-argument branch
calls `advance` past the end of the input — an uncaught `IndexError`, for
every pair of tag sets. -/
theorem claim_advance_in_bounds (single group : List String) :
    checkCore "[a b " single group = .error .indexError := by
  simp [checkCore, check, initSt, checkLoop_eq, parse_tag, parseConstruct,
        parseNameArgs, parseTagName, nameLoop_eq, argLoop_eq, argStep, quoteLoop_eq,
        skip_whitespace_eq, classify, consume, bumpLC, is_whitespace, isalnum, escChar,
        mkErr, checkFinal]

/-- C9: a name in both the single and the group set is treated as single:
an opening occurrence has no stack effect, and a closing occurrence fails
with the close-of-single-tag error — for every occurrence (any state). -/
theorem claim_single_precedence (single group : List String) (n : String)
    (hn : validName n = true) (hs : n ∈ single) (_hg : n ∈ group)
    (r : List Char) (l c : Nat) (stk : List String) :
    parse_tag single group ⟨'[' :: (n.data ++ ']' :: r), l, c, stk⟩ =
      .ok ⟨r, l, c + n.length + 2, stk⟩ ∧
    parse_tag single group ⟨'[' :: '/' :: (n.data ++ ']' :: r), l, c, stk⟩ =
      .error (.dsl ⟨l, c + n.length + 3, m_close_single n, stk⟩) := by
  have hs2 : single.contains n = true := (contains_iff_mem _ _).2 hs
  exact ⟨parse_tag_open_single single group n hn hs2 r l c stk,
    parse_tag_close_single single group n hn hs2 r l c stk⟩

theorem claim_single_precedence_witness :
    parse_tag ["br"] ["br"] ⟨'[' :: ("br".data ++ ']' :: []), 1, 1, []⟩ =
      .ok ⟨[], 1, 1 + "br".length + 2, []⟩ ∧
    parse_tag ["br"] ["br"] ⟨'[' :: '/' :: ("br".data ++ ']' :: []), 1, 1, []⟩ =
      .error (.dsl ⟨1, 1 + "br".length + 3, m_close_single "br", []⟩) :=
  claim_single_precedence ["br"] ["br"] "br" (by decide) (by decide) (by decide)
    [] 1 1 []

/-- C10: the top-level scan loop treats every character other than the
escape marker and `[` as ordinary text (it is consumed with no other
effect), and in particular an unescaped `]` at top level never causes a
failure: `"a]b"` is accepted with empty tag sets. -/
theorem claim_toplevel_ordinary_text (single group : List String) :
    (∀ (ch : Char) (r : List Char) (l c : Nat) (stk : List String),
      ch ≠ escChar → ch ≠ '[' →
      checkLoop single group ⟨ch :: r, l, c, stk⟩ =
        checkLoop single group (consume ch r ⟨ch :: r, l, c, stk⟩)) ∧
    check_syntax "a]b" [] [] false = .ok (true, none) := by
  constructor
  · intro ch r l c stk h1 h2
    rw [checkLoop_eq]
    simp only []
    rw [if_neg h1, if_neg h2]
  · decide

theorem claim_toplevel_ordinary_text_witness :
    checkLoop [] [] ⟨']' :: "x".data, 1, 1, []⟩ =
      checkLoop [] [] (consume ']' "x".data ⟨']' :: "x".data, 1, 1, []⟩) :=
  (claim_toplevel_ordinary_text [] []).1 ']' "x".data 1 1 [] (by decide) (by decide)

/- ------------------------------------------------------------------
Simulation relations: two runs whose states agree on remaining input and
stack (but may differ in line/column) produce the same outcome — the same
acceptance, and on failure the same message and stack snapshot.
------------------------------------------------------------------- -/

/-- States that agree on remaining input and open-tag stack. -/
def StE (s t : St) : Prop := s.rest = t.rest ∧ s.stack = t.stack

/-- Failures that agree on everything but position. -/
def ErrE : PyErr → PyErr → Prop
  | .dsl d1, .dsl d2 => d1.message = d2.message ∧ d1.stack = d2.stack
  | .indexError, .indexError => True
  | _, _ => False

/-- Results related componentwise: `ok` to `ok` by `R`, failures by
`ErrE`. -/
def ResE {α : Type} (R : α → α → Prop) :
    Except PyErr α → Except PyErr α → Prop
  | .ok a, .ok b => R a b
  | .error e1, .error e2 => ErrE e1 e2
  | _, _ => False

theorem skip_whitespaceF_sim (fuel : Nat) : ∀ (s t : St), s.rest = t.rest →
    (skip_whitespaceF fuel s).rest = (skip_whitespaceF fuel t).rest := by
  induction fuel with
  | zero => intro s t h; exact h
  | succ fuel ih =>
      intro s t h
      obtain ⟨rs, l1, c1, k1⟩ := s
      obtain ⟨rt, l2, c2, k2⟩ := t
      simp only [St.rest] at h
      subst h
      cases rs with
      | nil => rfl
      | cons ch r =>
          simp only [skip_whitespaceF]
          split
          · exact ih _ _ (by simp)
          · rfl

theorem skip_whitespace_sim (s t : St) (h : s.rest = t.rest) :
    (skip_whitespace s).rest = (skip_whitespace t).rest := by
  unfold skip_whitespace
  rw [h]
  exact skip_whitespaceF_sim _ s t h

theorem quoteLoopF_sim (fuel : Nat) : ∀ (s t : St), s.rest = t.rest →
    s.stack = t.stack → ResE StE (quoteLoopF fuel s) (quoteLoopF fuel t) := by
  induction fuel with
  | zero => intro s t _ _; exact trivial
  | succ fuel ih =>
      intro s t h1 h2
      obtain ⟨rs, l1, c1, k1⟩ := s
      obtain ⟨rt, l2, c2, k2⟩ := t
      simp only [St.rest, St.stack] at h1 h2
      subst h1
      subst h2
      cases rs with
      | nil => exact ⟨rfl, rfl⟩
      | cons ch r =>
          simp only [quoteLoopF]
          by_cases hesc : ch = escChar
          · rw [if_pos hesc, if_pos hesc]
            cases r with
            | nil => exact ⟨rfl, by simp [mkErr]⟩
            | cons ch2 r2 => exact ih _ _ (by simp) (by simp)
          · by_cases hq : ch = '"'
            · rw [if_neg hesc, if_neg hesc, if_pos hq, if_pos hq]
              exact ⟨by simp, by simp⟩
            · rw [if_neg hesc, if_neg hesc, if_neg hq, if_neg hq]
              exact ih _ _ (by simp) (by simp)

theorem quoteLoop_sim (s t : St) (h1 : s.rest = t.rest) (h2 : s.stack = t.stack) :
    ResE StE (quoteLoop s) (quoteLoop t) := by
  unfold quoteLoop
  rw [h1]
  exact quoteLoopF_sim _ s t h1 h2

theorem nameLoopF_sim (fuel : Nat) : ∀ (s t : St) (acc : String), s.rest = t.rest →
    s.stack = t.stack →
    ResE (fun p q => p.1 = q.1 ∧ StE p.2 q.2)
      (nameLoopF fuel s acc) (nameLoopF fuel t acc) := by
  induction fuel with
  | zero => intro s t acc _ _; exact trivial
  | succ fuel ih =>
      intro s t acc h1 h2
      obtain ⟨rs, l1, c1, k1⟩ := s
      obtain ⟨rt, l2, c2, k2⟩ := t
      simp only [St.rest, St.stack] at h1 h2
      subst h1
      subst h2
      cases rs with
      | nil => exact ⟨rfl, rfl⟩
      | cons ch r =>
          simp only [nameLoopF]
          by_cases hb : is_whitespace ch = true ∨ ch = ']'
          · rw [if_pos hb, if_pos hb]
            exact ⟨rfl, rfl, rfl⟩
          · rw [if_neg hb, if_neg hb]
            by_cases hesc : ch = escChar
            · rw [if_pos hesc, if_pos hesc]
              exact ⟨rfl, rfl⟩
            · rw [if_neg hesc, if_neg hesc]
              by_cases hval : isalnum ch = true ∨ ch = '#' ∨ ch = '_' ∨ ch = '-'
              · rw [if_neg (not_not_intro hval), if_neg (not_not_intro hval)]
                exact ih _ _ _ (by simp) (by simp)
              · rw [if_pos hval, if_pos hval]
                exact ⟨rfl, rfl⟩

theorem nameLoop_sim (s t : St) (acc : String) (h1 : s.rest = t.rest)
    (h2 : s.stack = t.stack) :
    ResE (fun p q => p.1 = q.1 ∧ StE p.2 q.2) (nameLoop s acc) (nameLoop t acc) := by
  unfold nameLoop
  rw [h1]
  exact nameLoopF_sim _ s t acc h1 h2

theorem argStep_sim (s t : St) (h1 : s.rest = t.rest) (h2 : s.stack = t.stack) :
    ResE StE (argStep s) (argStep t) := by
  obtain ⟨rs, l1, c1, k1⟩ := s
  obtain ⟨rt, l2, c2, k2⟩ := t
  simp only [St.rest, St.stack] at h1 h2
  subst h1
  subst h2
  cases rs with
  | nil => exact trivial
  | cons ch r =>
      simp only [argStep]
      by_cases hq : ch = '"'
      · rw [if_pos hq, if_pos hq]
        exact quoteLoop_sim _ _ (by simp) (by simp)
      · rw [if_neg hq, if_neg hq]
        by_cases hesc : ch = escChar
        · rw [if_pos hesc, if_pos hesc]
          cases r with
          | nil => exact ⟨rfl, by simp [mkErr]⟩
          | cons ch2 r2 => exact ⟨by simp, by simp⟩
        · rw [if_neg hesc, if_neg hesc]
          by_cases hbr : ch = '['
          · rw [if_pos hbr, if_pos hbr]
            exact ⟨rfl, rfl⟩
          · rw [if_neg hbr, if_neg hbr]
            exact ⟨by simp, by simp⟩

theorem argLoopF_sim (fuel : Nat) : ∀ (s t : St), s.rest = t.rest →
    s.stack = t.stack → ResE StE (argLoopF fuel s) (argLoopF fuel t) := by
  induction fuel with
  | zero => intro s t _ _; exact trivial
  | succ fuel ih =>
      intro s t h1 h2
      obtain ⟨rs, l1, c1, k1⟩ := s
      obtain ⟨rt, l2, c2, k2⟩ := t
      simp only [St.rest, St.stack] at h1 h2
      subst h1
      subst h2
      cases rs with
      | nil => exact ⟨rfl, rfl⟩
      | cons ch r =>
          simp only [argLoopF]
          by_cases hb : ch = ']'
          · rw [if_pos hb, if_pos hb]
            exact ⟨rfl, rfl⟩
          · rw [if_neg hb, if_neg hb]
            by_cases hws : is_whitespace ch = true
            · rw [if_pos hws, if_pos hws]
              have hskr := skip_whitespace_sim ⟨ch :: r, l1, c1, k1⟩
                ⟨ch :: r, l2, c2, k1⟩ rfl
              have hsks : (skip_whitespace ⟨ch :: r, l1, c1, k1⟩).stack =
                  (skip_whitespace ⟨ch :: r, l2, c2, k1⟩).stack := by
                rw [skip_whitespace_stack, skip_whitespace_stack]
              by_cases hhd :
                  (skip_whitespace ⟨ch :: r, l1, c1, k1⟩).rest.head? = some ']'
              · rw [if_pos hhd, if_pos (by rw [← hskr]; exact hhd)]
                exact ⟨hskr, hsks⟩
              · rw [if_neg hhd, if_neg (by rw [← hskr]; exact hhd)]
                have hstep := argStep_sim (skip_whitespace ⟨ch :: r, l1, c1, k1⟩)
                  (skip_whitespace ⟨ch :: r, l2, c2, k1⟩) hskr hsks
                cases hx : argStep (skip_whitespace ⟨ch :: r, l1, c1, k1⟩) with
                | error e1 =>
                    cases hy : argStep (skip_whitespace ⟨ch :: r, l2, c2, k1⟩) with
                    | error e2 => rw [hx, hy] at hstep; exact hstep
                    | ok b => rw [hx, hy] at hstep; exact absurd hstep (by simp [ResE])
                | ok a =>
                    cases hy : argStep (skip_whitespace ⟨ch :: r, l2, c2, k1⟩) with
                    | error e2 =>
                        rw [hx, hy] at hstep
                        exact absurd hstep (by simp [ResE])
                    | ok b =>
                        rw [hx, hy] at hstep
                        exact ih _ _ hstep.1 hstep.2
            · rw [if_neg hws, if_neg hws]
              have hstep := argStep_sim ⟨ch :: r, l1, c1, k1⟩ ⟨ch :: r, l2, c2, k1⟩ rfl rfl
              cases hx : argStep ⟨ch :: r, l1, c1, k1⟩ with
              | error e1 =>
                  cases hy : argStep ⟨ch :: r, l2, c2, k1⟩ with
                  | error e2 => rw [hx, hy] at hstep; exact hstep
                  | ok b => rw [hx, hy] at hstep; exact absurd hstep (by simp [ResE])
              | ok a =>
                  cases hy : argStep ⟨ch :: r, l2, c2, k1⟩ with
                  | error e2 => rw [hx, hy] at hstep; exact absurd hstep (by simp [ResE])
                  | ok b =>
                      rw [hx, hy] at hstep
                      exact ih _ _ hstep.1 hstep.2

theorem argLoop_sim (s t : St) (h1 : s.rest = t.rest) (h2 : s.stack = t.stack) :
    ResE StE (argLoop s) (argLoop t) := by
  unfold argLoop
  rw [h1]
  exact argLoopF_sim _ s t h1 h2

theorem parseTagName_sim (s t : St) (h1 : s.rest = t.rest) (h2 : s.stack = t.stack) :
    ResE (fun p q => p.1 = q.1 ∧ StE p.2 q.2) (parseTagName s) (parseTagName t) := by
  obtain ⟨rs, l1, c1, k1⟩ := s
  obtain ⟨rt, l2, c2, k2⟩ := t
  simp only [St.rest, St.stack] at h1 h2
  subst h1
  subst h2
  cases rs with
  | nil => exact ⟨rfl, rfl⟩
  | cons ch r =>
      simp only [parseTagName]
      by_cases hesc : ch = escChar
      · rw [if_pos hesc, if_pos hesc]
        exact ⟨rfl, rfl⟩
      · rw [if_neg hesc, if_neg hesc]
        by_cases hval : isalnum ch = true ∨ ch = '#'
        · rw [if_neg (not_not_intro hval), if_neg (not_not_intro hval)]
          exact nameLoop_sim _ _ _ (by simp) (by simp)
        · rw [if_pos hval, if_pos hval]
          exact ⟨rfl, rfl⟩

theorem parseNameArgs_sim (b : Bool) (s t : St) (h1 : s.rest = t.rest)
    (h2 : s.stack = t.stack) :
    ResE (fun p q => p.1 = q.1 ∧ p.2.1 = q.2.1 ∧ StE p.2.2 q.2.2)
      (parseNameArgs b s) (parseNameArgs b t) := by
  have hpt := parseTagName_sim s t h1 h2
  unfold parseNameArgs
  cases hx : parseTagName s with
  | error e1 =>
      cases hy : parseTagName t with
      | error e2 => rw [hx, hy] at hpt; exact hpt
      | ok q => rw [hx, hy] at hpt; exact absurd hpt (by simp [ResE])
  | ok p =>
      cases hy : parseTagName t with
      | error e2 => rw [hx, hy] at hpt; exact absurd hpt (by simp [ResE])
      | ok q =>
          rw [hx, hy] at hpt
          obtain ⟨nm1, s4⟩ := p
          obtain ⟨nm2, t4⟩ := q
          have hnm : nm1 = nm2 := hpt.1
          have hr4 : s4.rest = t4.rest := hpt.2.1
          have hk4 : s4.stack = t4.stack := hpt.2.2
          clear hpt
          subst hnm
          simp only []
          have hskr := skip_whitespace_sim s4 t4 hr4
          have hsks : (skip_whitespace s4).stack = (skip_whitespace t4).stack := by
            rw [skip_whitespace_stack, skip_whitespace_stack, hk4]
          have hal := argLoop_sim (skip_whitespace s4) (skip_whitespace t4) hskr hsks
          cases hx2 : argLoop (skip_whitespace s4) with
          | error e1 =>
              cases hy2 : argLoop (skip_whitespace t4) with
              | error e2 => rw [hx2, hy2] at hal; exact hal
              | ok t6 => rw [hx2, hy2] at hal; exact absurd hal (by simp [ResE])
          | ok s6 =>
              cases hy2 : argLoop (skip_whitespace t4) with
              | error e2 => rw [hx2, hy2] at hal; exact absurd hal (by simp [ResE])
              | ok t6 =>
                  rw [hx2, hy2] at hal
                  obtain ⟨hr6, hk6⟩ := hal
                  simp only []
                  rw [← hr6]
                  split
                  · exact ⟨rfl, rfl, by simp, by simp [hk6]⟩
                  · exact ⟨rfl, hk6⟩

theorem parseConstruct_sim (s t : St) (h1 : s.rest = t.rest) (h2 : s.stack = t.stack) :
    ResE (fun p q => p.1 = q.1 ∧ p.2.1 = q.2.1 ∧ StE p.2.2 q.2.2)
      (parseConstruct s) (parseConstruct t) := by
  obtain ⟨rs, l1, c1, k1⟩ := s
  obtain ⟨rt, l2, c2, k2⟩ := t
  simp only [St.rest, St.stack] at h1 h2
  subst h1
  subst h2
  cases rs with
  | nil => exact trivial
  | cons ch0 r0 =>
      simp only [parseConstruct]
      split
      · exact parseNameArgs_sim true _ _ (by simp) (by simp)
      all_goals exact parseNameArgs_sim false _ _ (by simp) (by simp)

theorem classify_sim (single group : List String) (isc : Bool) (nm : String)
    (s t : St) (h1 : s.rest = t.rest) (h2 : s.stack = t.stack) :
    ResE StE (classify single group isc nm s) (classify single group isc nm t) := by
  obtain ⟨rs, l1, c1, k1⟩ := s
  obtain ⟨rt, l2, c2, k2⟩ := t
  simp only [St.rest, St.stack] at h1 h2
  subst h1
  subst h2
  unfold classify
  cases isc with
  | true =>
      rw [if_pos rfl, if_pos rfl]
      by_cases hsing : single.contains nm = true
      · rw [if_pos hsing, if_pos hsing]
        exact ⟨rfl, rfl⟩
      · rw [if_neg hsing, if_neg hsing]
        cases k1 with
        | nil => exact ⟨rfl, rfl⟩
        | cons last stk =>
            simp only []
            by_cases hne : last ≠ nm
            · rw [if_pos hne, if_pos hne]
              exact ⟨rfl, rfl⟩
            · rw [if_neg hne, if_neg hne]
              exact ⟨rfl, rfl⟩
  | false =>
      rw [if_neg (show ¬ (false = true) from by simp),
          if_neg (show ¬ (false = true) from by simp)]
      by_cases hsing : single.contains nm = true
      · rw [if_pos hsing, if_pos hsing]
        exact ⟨rfl, rfl⟩
      · rw [if_neg hsing, if_neg hsing]
        by_cases hgrp : group.contains nm = true
        · rw [if_pos hgrp, if_pos hgrp]
          exact ⟨rfl, rfl⟩
        · rw [if_neg hgrp, if_neg hgrp]
          exact ⟨rfl, rfl⟩

theorem parse_tag_sim (single group : List String) (s t : St) (h1 : s.rest = t.rest)
    (h2 : s.stack = t.stack) :
    ResE StE (parse_tag single group s) (parse_tag single group t) := by
  have hpc := parseConstruct_sim s t h1 h2
  unfold parse_tag
  cases hx : parseConstruct s with
  | error e1 =>
      cases hy : parseConstruct t with
      | error e2 => rw [hx, hy] at hpc; exact hpc
      | ok q => rw [hx, hy] at hpc; exact absurd hpc (by simp [ResE])
  | ok p =>
      cases hy : parseConstruct t with
      | error e2 => rw [hx, hy] at hpc; exact absurd hpc (by simp [ResE])
      | ok q =>
          rw [hx, hy] at hpc
          obtain ⟨isc1, nm1, s7⟩ := p
          obtain ⟨isc2, nm2, t7⟩ := q
          have hisc : isc1 = isc2 := hpc.1
          have hnm : nm1 = nm2 := hpc.2.1
          have h7r : s7.rest = t7.rest := hpc.2.2.1
          have h7k : s7.stack = t7.stack := hpc.2.2.2
          subst hisc
          subst hnm
          exact classify_sim single group isc1 nm1 s7 t7 h7r h7k

theorem checkLoopF_sim (single group : List String) (fuel : Nat) :
    ∀ (s t : St), s.rest = t.rest → s.stack = t.stack →
    ResE StE (checkLoopF single group fuel s) (checkLoopF single group fuel t) := by
  induction fuel with
  | zero => intro s t _ _; exact trivial
  | succ fuel ih =>
      intro s t h1 h2
      obtain ⟨rs, l1, c1, k1⟩ := s
      obtain ⟨rt, l2, c2, k2⟩ := t
      simp only [St.rest, St.stack] at h1 h2
      subst h1
      subst h2
      cases rs with
      | nil => exact ⟨rfl, rfl⟩
      | cons ch r =>
          simp only [checkLoopF]
          by_cases hesc : ch = escChar
          · rw [if_pos hesc, if_pos hesc]
            cases r with
            | nil => exact ⟨rfl, by simp [mkErr]⟩
            | cons ch2 r2 => exact ih _ _ (by simp) (by simp)
          · rw [if_neg hesc, if_neg hesc]
            by_cases hbr : ch = '['
            · rw [if_pos hbr, if_pos hbr]
              have hpt := parse_tag_sim single group ⟨ch :: r, l1, c1, k1⟩
                ⟨ch :: r, l2, c2, k1⟩ rfl rfl
              cases hx : parse_tag single group ⟨ch :: r, l1, c1, k1⟩ with
              | error e1 =>
                  cases hy : parse_tag single group ⟨ch :: r, l2, c2, k1⟩ with
                  | error e2 => rw [hx, hy] at hpt; exact hpt
                  | ok b => rw [hx, hy] at hpt; exact absurd hpt (by simp [ResE])
              | ok a =>
                  cases hy : parse_tag single group ⟨ch :: r, l2, c2, k1⟩ with
                  | error e2 => rw [hx, hy] at hpt; exact absurd hpt (by simp [ResE])
                  | ok b =>
                      rw [hx, hy] at hpt
                      exact ih _ _ hpt.1 hpt.2
            · rw [if_neg hbr, if_neg hbr]
              exact ih _ _ (by simp) (by simp)

theorem checkLoop_sim (single group : List String) (s t : St) (h1 : s.rest = t.rest)
    (h2 : s.stack = t.stack) :
    ResE StE (checkLoop single group s) (checkLoop single group t) := by
  unfold checkLoop
  rw [h1]
  exact checkLoopF_sim single group _ s t h1 h2

theorem checkFinal_simT (x y : Except PyErr St) (h : ResE StE x y) :
    ResE (fun _ _ => True) (checkFinal x) (checkFinal y) := by
  cases x with
  | error e1 =>
      cases y with
      | error e2 => exact h
      | ok b => exact absurd h (by simp [ResE])
  | ok a =>
      cases y with
      | error e2 => exact absurd h (by simp [ResE])
      | ok b =>
          obtain ⟨hr, hk⟩ := h
          simp only [checkFinal]
          by_cases hstk : a.stack = []
          · rw [if_neg (not_not_intro hstk), if_neg (not_not_intro (hk ▸ hstk))]
            exact trivial
          · rw [if_pos hstk, if_pos (hk ▸ hstk)]
            exact ⟨rfl, hk⟩

theorem check_sim (single group : List String) (s t : St) (h1 : s.rest = t.rest)
    (h2 : s.stack = t.stack) :
    ResE (fun _ _ => True) (check single group s) (check single group t) :=
  checkFinal_simT _ _ (checkLoop_sim single group s t h1 h2)

theorem checkLoop_escape (single group : List String) (s : St) (c : Char)
    (r : List Char) (h : s.rest = escChar :: c :: r) :
    checkLoop single group s =
      checkLoop single group (consume c r (consume escChar (c :: r) s)) := by
  rw [checkLoop_eq, h]
  simp only []
  rw [if_pos trivial]

theorem checkLoop_ordinary (single group : List String) (s : St) (c : Char)
    (r : List Char) (h : s.rest = c :: r) (hesc : c ≠ escChar) (hbr : c ≠ '[') :
    checkLoop single group s = checkLoop single group (consume c r s) := by
  rw [checkLoop_eq, h]
  simp only []
  rw [if_neg hesc, if_neg hbr]

theorem argStep_escape (s : St) (c : Char) (r : List Char)
    (h : s.rest = escChar :: c :: r) :
    argStep s = .ok (consume c r (consume escChar (c :: r) s)) := by
  unfold argStep
  rw [h]
  simp only []
  rw [if_neg (show ¬ (escChar = '"') from by decide), if_pos trivial]

theorem argLoop_escape (s : St) (c : Char) (r : List Char)
    (h : s.rest = escChar :: c :: r) :
    argLoop s = argLoop (consume c r (consume escChar (c :: r) s)) := by
  rw [argLoop_eq, h]
  simp only []
  rw [if_neg (show ¬ (escChar = ']') from by decide),
      if_neg (show ¬ (is_whitespace escChar = true) from by decide),
      argStep_escape s c r h]

theorem argStep_ordinary (s : St) (c : Char) (r : List Char) (h : s.rest = c :: r)
    (hq : c ≠ '"') (hesc : c ≠ escChar) (hbr : c ≠ '[') :
    argStep s = .ok (consume c r s) := by
  unfold argStep
  rw [h]
  simp only []
  rw [if_neg hq, if_neg hesc, if_neg hbr]

theorem argLoop_ordinary (s : St) (c : Char) (r : List Char) (h : s.rest = c :: r)
    (hws : is_whitespace c = false) (hrb : c ≠ ']') (hq : c ≠ '"')
    (hesc : c ≠ escChar) (hbr : c ≠ '[') :
    argLoop s = argLoop (consume c r s) := by
  rw [argLoop_eq, h]
  simp only []
  rw [if_neg hrb, if_neg (show ¬ (is_whitespace c = true) from by simp [hws]),
      argStep_ordinary s c r h hq hesc hbr]

/-- C5: escaping makes a character structurally literal.  At top level the
escaped pair `escChar c` is structurally inert: the whole run behaves (same
acceptance, same failure message and stack snapshot) as the run on the rest
of the input alone, and — for any ordinary character `c` — as the run on
the input with the escape marker removed; the same two equivalences hold
for the unquoted-argument loop.  Positions may differ, so results are
compared by `ResE`, which demands identical accept/reject outcome,
identical failure message and identical stack snapshot. -/
theorem claim_escape_literal (single group : List String) (c : Char)
    (r : List Char) (l col l2 col2 : Nat) (stk : List String) :
    (ResE (fun _ _ => True)
        (check single group ⟨escChar :: c :: r, l, col, stk⟩)
        (check single group ⟨r, l2, col2, stk⟩))
    ∧ (c ≠ escChar → c ≠ '[' →
        ResE (fun _ _ => True)
          (check single group ⟨escChar :: c :: r, l, col, stk⟩)
          (check single group ⟨c :: r, l2, col2, stk⟩))
    ∧ (ResE StE (argLoop ⟨escChar :: c :: r, l, col, stk⟩)
        (argLoop ⟨r, l2, col2, stk⟩))
    ∧ (is_whitespace c = false → c ≠ ']' → c ≠ '"' → c ≠ escChar → c ≠ '[' →
        ResE StE (argLoop ⟨escChar :: c :: r, l, col, stk⟩)
          (argLoop ⟨c :: r, l2, col2, stk⟩)) := by
  have e1 := checkLoop_escape single group ⟨escChar :: c :: r, l, col, stk⟩ c r rfl
  have e3 := argLoop_escape ⟨escChar :: c :: r, l, col, stk⟩ c r rfl
  refine ⟨?_, ?_, ?_, ?_⟩
  · unfold check
    rw [e1]
    exact checkFinal_simT _ _
      (checkLoop_sim single group _ _ (by simp) (by simp))
  · intro hesc hbr
    have e2 := checkLoop_ordinary single group ⟨c :: r, l2, col2, stk⟩ c r rfl hesc hbr
    unfold check
    rw [e1, e2]
    exact checkFinal_simT _ _
      (checkLoop_sim single group _ _ (by simp) (by simp))
  · rw [e3]
    exact argLoop_sim _ _ (by simp) (by simp)
  · intro hws hrb hq hesc hbr
    have e4 := argLoop_ordinary ⟨c :: r, l2, col2, stk⟩ c r rfl hws hrb hq hesc hbr
    rw [e3, e4]
    exact argLoop_sim _ _ (by simp) (by simp)

/-- Witness for C5 at `c = 'x'`, `r = "]"`: the hypotheses hold for `'x'`
and the top-level equivalence applies. -/
theorem claim_escape_literal_witness :
    ('x' ≠ escChar ∧ 'x' ≠ '[' ∧ is_whitespace 'x' = false ∧ 'x' ≠ ']' ∧ 'x' ≠ '"')
    ∧ ResE (fun _ _ => True)
        (check [] [] ⟨[escChar, 'x', ']'], 1, 1, []⟩)
        (check [] [] ⟨['x', ']'], 1, 5, []⟩)
    ∧ ResE StE (argLoop ⟨[escChar, 'x', ']'], 1, 1, []⟩)
        (argLoop ⟨['x', ']'], 1, 5, []⟩) :=
  ⟨by decide,
   (claim_escape_literal [] [] 'x' [']'] 1 1 1 5 []).2.1 (by decide) (by decide),
   (claim_escape_literal [] [] 'x' [']'] 1 1 1 5 []).2.2.2 (by decide) (by decide)
     (by decide) (by decide) (by decide)⟩

theorem isalnum_chars (c : Char) : isalnum c = true ↔
    (('A' ≤ c ∧ c ≤ 'Z') ∨ ('a' ≤ c ∧ c ≤ 'z') ∨ ('0' ≤ c ∧ c ≤ '9')) := by
  simp [isalnum, Char.isAlphanum, Char.isAlpha, Char.isDigit, Char.isUpper, Char.isLower,
        Char.le_def, or_assoc, ge_iff_le]

/-- The spec's `[A-Za-z0-9#]` class coincides with the code's
`ch.isalnum() or ch == '#'` on every character. -/
theorem specNameStart_eq (c : Char) : specNameStart c = isNameStart c := by
  have h1 : specNameStart c = true ↔
      ((('A' ≤ c ∧ c ≤ 'Z') ∨ ('a' ≤ c ∧ c ≤ 'z') ∨ ('0' ≤ c ∧ c ≤ '9')) ∨ c = '#') := by
    simp [specNameStart, or_assoc]
  have h2 : isNameStart c = true ↔
      ((('A' ≤ c ∧ c ≤ 'Z') ∨ ('a' ≤ c ∧ c ≤ 'z') ∨ ('0' ≤ c ∧ c ≤ '9')) ∨ c = '#') := by
    simp [isNameStart, isalnum_chars]
  exact Bool.eq_iff_iff.mpr (h1.trans h2.symm)

/-- The spec's `[A-Za-z0-9#_-]` class coincides with the code's name-body
class. -/
theorem specNameChar_eq (c : Char) : specNameChar c = isNameChar c := by
  have h1 : specNameChar c = true ↔ (specNameStart c = true ∨ c = '_' ∨ c = '-') := by
    simp [specNameChar, or_assoc]
  have h2 : isNameChar c = true ↔ (isNameStart c = true ∨ c = '_' ∨ c = '-') := by
    simp [isNameChar, isNameStart, or_assoc]
  rw [specNameStart_eq] at h1
  exact Bool.eq_iff_iff.mpr (h1.trans h2.symm)

/-- The spec's whitespace class coincides with the code's. -/
theorem specWS_eq (c : Char) : specWS c = is_whitespace c := by
  have h1 : specWS c = true ↔ (c = ' ' ∨ c = '\t' ∨ c = '\n' ∨ c = '\r') := by
    simp [specWS, or_assoc]
  have h2 : is_whitespace c = true ↔ (c = ' ' ∨ c = '\t' ∨ c = '\n' ∨ c = '\r') := by
    simp [is_whitespace]
  exact Bool.eq_iff_iff.mpr (h1.trans h2.symm)

/-- The spec's `name` regex coincides with the code's lexical name check. -/
theorem specName_validName (l : List Char) : specName l = validName (String.mk l) := by
  cases l with
  | nil => rfl
  | cons c r =>
      show (specNameStart c && r.all specNameChar) = (isNameStart c && r.all isNameChar)
      rw [show specNameChar = isNameChar from funext specNameChar_eq, specNameStart_eq]

theorem dropWhile_head_false {p : Char → Bool} (l : List Char) (d : Char) (ds : List Char)
    (h : l.dropWhile p = d :: ds) : p d = false := by
  induction l with
  | nil => simp at h
  | cons c r ih =>
      rw [List.dropWhile_cons] at h
      split at h
      · exact ih h
      · rename_i hc
        injection h with h1 _
        subst h1
        simpa using hc

theorem dropWhile_ws_append_rb (sect rest : List Char) :
    ((sect ++ ']' :: rest).dropWhile is_whitespace) =
      sect.dropWhile is_whitespace ++ ']' :: rest := by
  induction sect with
  | nil =>
      simp [List.dropWhile_cons]
      intro h
      exact absurd h (by decide)
  | cons c r ih =>
      rw [List.cons_append, List.dropWhile_cons, List.dropWhile_cons]
      split
      · exact ih
      · rfl

/-- `skip_whitespace` drops exactly the leading whitespace run. -/
theorem skip_whitespace_drop (s : St) :
    (skip_whitespace s).rest = s.rest.dropWhile is_whitespace := by
  have H : ∀ (n : Nat) (s : St), s.rest.length ≤ n →
      (skip_whitespace s).rest = s.rest.dropWhile is_whitespace := by
    intro n
    induction n with
    | zero =>
        intro s hlen
        have : s.rest = [] := List.eq_nil_of_length_eq_zero (Nat.le_zero.mp hlen)
        rw [skip_whitespace_nil s this, this]
        rfl
    | succ n ih =>
        intro s hlen
        cases hr : s.rest with
        | nil => rw [skip_whitespace_nil s hr, hr]; rfl
        | cons ch r =>
            rw [skip_whitespace_cons s ch r hr, List.dropWhile_cons]
            by_cases hws : is_whitespace ch = true
            · rw [if_pos hws, if_pos hws]
              have := ih (consume ch r s) (by rw [hr] at hlen; simp at hlen ⊢; omega)
              simpa using this
            · rw [if_neg hws, if_neg hws]
              exact hr
  exact H s.rest.length s (Nat.le_refl _)

theorem ArgSeq_append (a b : List Char) (ha : ArgSeq a) (hb : ArgSeq b) :
    ArgSeq (a ++ b) := by
  induction ha with
  | nil => exact hb
  | ws c rest hws _ ih => exact ArgSeq.ws c _ hws ih
  | esc c rest _ ih => exact ArgSeq.esc c _ ih
  | quoted q rest hq _ ih =>
      have : ('"' :: (q ++ '"' :: rest)) ++ b = '"' :: (q ++ '"' :: (rest ++ b)) := by
        simp
      rw [this]
      exact ArgSeq.quoted q _ hq ih
  | chr c rest h1 h2 h3 h4 h5 _ ih => exact ArgSeq.chr c _ h1 h2 h3 h4 h5 ih

theorem ArgSeq_ws_prepend (w sect : List Char) (hw : ∀ c, c ∈ w → is_whitespace c = true)
    (hs : ArgSeq sect) : ArgSeq (w ++ sect) := by
  induction w with
  | nil => exact hs
  | cons c r ih =>
      exact ArgSeq.ws c _ (hw c (by simp)) (ih (fun d hd => hw d (by simp [hd])))

/-- Dropping the leading whitespace run of an argument section leaves an
argument section. -/
theorem ArgSeq_dropWhile (sect : List Char) (h : ArgSeq sect) :
    ArgSeq (sect.dropWhile is_whitespace) := by
  induction h with
  | nil => exact ArgSeq.nil
  | ws c rest hws _ ih => rw [List.dropWhile_cons, if_pos hws]; exact ih
  | esc c rest hr ih =>
      rw [List.dropWhile_cons, if_neg (by decide)]
      exact ArgSeq.esc c _ hr
  | quoted q rest hq hr ih =>
      rw [List.dropWhile_cons, if_neg (by decide)]
      exact ArgSeq.quoted q _ hq hr
  | chr c rest h1 h2 h3 h4 h5 hr ih =>
      rw [List.dropWhile_cons, if_neg (by simp [h1])]
      exact ArgSeq.chr c _ h1 h2 h3 h4 h5 hr

/-- A nonempty argument section with a non-whitespace head does not start
with `]`. -/
theorem ArgSeq_head_ne (d : Char) (ds : List Char) (h : ArgSeq (d :: ds))
    (hws : is_whitespace d = false) : d ≠ ']' := by
  cases h with
  | ws _ _ hw _ => rw [hw] at hws; exact absurd hws (by simp)
  | esc _ _ _ => decide
  | quoted _ _ _ _ => decide
  | chr _ _ _ h2 _ _ _ _ => exact h2

/-- Soundness of the quoted-run grammar: the quote loop closes at the `"`
that follows a `QBody`. -/
theorem quoteLoop_qbody (q : List Char) (hq : QBody q) : ∀ (tail : List Char) (s : St),
    s.rest = q ++ '"' :: tail →
    ∃ s2, quoteLoop s = .ok s2 ∧ s2.rest = tail ∧ s2.stack = s.stack := by
  induction hq with
  | nil =>
      intro tail s hs
      simp only [List.nil_append] at hs
      rw [quoteLoop_eq, hs]
      simp only []
      rw [if_pos trivial]
      exact ⟨consume '"' tail s, rfl, by simp, by simp⟩
  | esc c rest _ ih =>
      intro tail s hs
      simp only [List.cons_append] at hs
      rw [quoteLoop_eq, hs]
      simp only []
      rw [if_pos trivial]
      obtain ⟨s2, h1, h2, h3⟩ :=
        ih tail (consume c (rest ++ '"' :: tail)
          (consume escChar (c :: (rest ++ '"' :: tail)) s)) (by simp)
      exact ⟨s2, h1, h2, by simpa using h3⟩
  | chr c rest hne hnesc _ ih =>
      intro tail s hs
      simp only [List.cons_append] at hs
      rw [quoteLoop_eq, hs]
      simp only []
      rw [if_neg hnesc, if_neg hne]
      obtain ⟨s2, h1, h2, h3⟩ := ih tail (consume c (rest ++ '"' :: tail) s) (by simp)
      exact ⟨s2, h1, h2, by simpa using h3⟩

/-- Completeness of the quoted-run grammar: a successful quote loop
consumed a `QBody` and its closing `"`. -/
theorem quoteLoopF_complete (fuel : Nat) : ∀ (s s2 : St), quoteLoopF fuel s = .ok s2 →
    ∃ q, s.rest = q ++ '"' :: s2.rest ∧ QBody q ∧ s2.stack = s.stack := by
  induction fuel with
  | zero => intro s s2 h; simp [quoteLoopF] at h
  | succ fuel ih =>
      intro s s2 h
      obtain ⟨rest, l, c, stk⟩ := s
      cases rest with
      | nil => simp [quoteLoopF] at h
      | cons ch r =>
          simp only [quoteLoopF] at h
          split at h
          · rename_i hesc
            cases r with
            | nil => simp at h
            | cons ch2 r2 =>
                obtain ⟨q, h1, h2, h3⟩ := ih _ _ h
                simp only [consume_rest] at h1
                refine ⟨escChar :: ch2 :: q, ?_, QBody.esc ch2 q h2, ?_⟩
                · rw [hesc, h1]
                  simp
                · simpa using h3
          · split at h
            · rename_i hne hq
              have hs2 : consume ch r ⟨ch :: r, l, c, stk⟩ = s2 := by
                injection h
              refine ⟨[], ?_, QBody.nil, ?_⟩
              · rw [← hs2, hq]
                simp
              · rw [← hs2]
                simp
            · rename_i hne hnq
              obtain ⟨q, h1, h2, h3⟩ := ih _ _ h
              simp only [consume_rest] at h1
              refine ⟨ch :: q, ?_, QBody.chr ch q hnq hne h2, ?_⟩
              · rw [h1]
                simp
              · simpa using h3

theorem quoteLoop_complete (s s2 : St) (h : quoteLoop s = .ok s2) :
    ∃ q, s.rest = q ++ '"' :: s2.rest ∧ QBody q ∧ s2.stack = s.stack :=
  quoteLoopF_complete _ s s2 h

/-- Completeness of the name loop: success consumed a run of name
characters and stopped at an unconsumed whitespace or `]`. -/
theorem nameLoopF_complete (fuel : Nat) : ∀ (s : St) (acc nm : String) (s4 : St),
    nameLoopF fuel s acc = .ok (nm, s4) →
    ∃ run d r4, s.rest = run ++ s4.rest ∧ run.all isNameChar = true ∧
      s4.rest = d :: r4 ∧ (is_whitespace d = true ∨ d = ']') ∧ s4.stack = s.stack := by
  induction fuel with
  | zero => intro s acc nm s4 h; simp [nameLoopF] at h
  | succ fuel ih =>
      intro s acc nm s4 h
      obtain ⟨rest, l, c, stk⟩ := s
      cases rest with
      | nil => simp [nameLoopF] at h
      | cons ch r =>
          simp only [nameLoopF] at h
          split at h
          · rename_i hstop
            have hs4 : s4 = ⟨ch :: r, l, c, stk⟩ := by
              have := h
              simp at this
              exact this.2.symm
            refine ⟨[], ch, r, by rw [hs4]; simp, rfl, by rw [hs4], hstop, by rw [hs4]⟩
          · split at h
            · simp at h
            · split at h
              · simp at h
              · rename_i hstop hesc hval
                obtain ⟨run, d, r4, h1, h2, h3, h4, h5⟩ := ih _ _ _ _ h
                simp only [consume_rest] at h1
                refine ⟨ch :: run, d, r4, ?_, ?_, h3, h4, by simpa using h5⟩
                · rw [h1]
                  simp
                · simp only [List.all_cons, Bool.and_eq_true]
                  refine ⟨?_, h2⟩
                  rw [isNameChar_prop]
                  exact not_not.mp hval

theorem nameLoop_complete (s : St) (acc nm : String) (s4 : St)
    (h : nameLoop s acc = .ok (nm, s4)) :
    ∃ run d r4, s.rest = run ++ s4.rest ∧ run.all isNameChar = true ∧
      s4.rest = d :: r4 ∧ (is_whitespace d = true ∨ d = ']') ∧ s4.stack = s.stack :=
  nameLoopF_complete _ s acc nm s4 h

/-- Completeness of tag-name parsing: success consumed a lexically valid
name and stopped at an unconsumed whitespace or `]`. -/
theorem parseTagName_complete (s : St) (nm : String) (s4 : St)
    (h : parseTagName s = .ok (nm, s4)) :
    ∃ nh nr d r4, s.rest = (nh :: nr) ++ s4.rest ∧ isNameStart nh = true ∧
      nr.all isNameChar = true ∧ s4.rest = d :: r4 ∧
      (is_whitespace d = true ∨ d = ']') ∧ s4.stack = s.stack := by
  obtain ⟨rest, l, c, stk⟩ := s
  cases rest with
  | nil => simp [parseTagName] at h
  | cons ch r =>
      simp only [parseTagName] at h
      split at h
      · simp at h
      · split at h
        · simp at h
        · rename_i hesc hval
          obtain ⟨run, d, r4, h1, h2, h3, h4, h5⟩ := nameLoop_complete _ _ _ _ h
          simp only [consume_rest] at h1
          refine ⟨ch, run, d, r4, ?_, ?_, h2, h3, h4, by simpa using h5⟩
          · rw [h1]
            simp
          · rw [isNameStart_prop]
            exact not_not.mp hval

theorem dropWhile_len_le (l : List Char) :
    (l.dropWhile is_whitespace).length ≤ l.length := by
  induction l with
  | nil => exact Nat.le_refl _
  | cons c r ih =>
      rw [List.dropWhile_cons]
      split
      · exact Nat.le_trans ih (by simp)
      · exact Nat.le_refl _

/-- One argument item (quoted run, escaped pair or plain character) at the
head of an argument section is consumed by a single `argStep`. -/
theorem argStep_item (d : Char) (ds rest : List Char) (hA : ArgSeq (d :: ds))
    (hws : is_whitespace d = false) (s : St) (hs : s.rest = (d :: ds) ++ ']' :: rest) :
    ∃ sect3 s2, argStep s = .ok s2 ∧ s2.rest = sect3 ++ ']' :: rest ∧
      s2.stack = s.stack ∧ ArgSeq sect3 ∧ sect3.length ≤ ds.length := by
  cases hA with
  | ws _ _ hw _ => rw [hw] at hws; exact absurd hws (by simp)
  | esc c rest' hr =>
      refine ⟨rest', consume c (rest' ++ ']' :: rest)
          (consume escChar (c :: (rest' ++ ']' :: rest)) s),
        argStep_escape s c (rest' ++ ']' :: rest) (by simpa using hs),
        by simp, by simp, hr, Nat.le_succ _⟩
  | quoted q rest' hq hr =>
      have hs2 : s.rest = '"' :: (q ++ '"' :: (rest' ++ ']' :: rest)) := by
        simpa using hs
      obtain ⟨s2, hql, h2, h3⟩ := quoteLoop_qbody q hq (rest' ++ ']' :: rest)
        (consume '"' (q ++ '"' :: (rest' ++ ']' :: rest)) s) (by simp)
      have hstep : argStep s =
          quoteLoop (consume '"' (q ++ '"' :: (rest' ++ ']' :: rest)) s) := by
        unfold argStep
        rw [hs2]
        simp only []
        rw [if_pos trivial]
      refine ⟨rest', s2, by rw [hstep, hql], h2, by rw [h3]; simp, hr, by
        simp only [List.length_append, List.length_cons]; omega⟩
  | chr c0 rest0 h1 h2 h3 h4 h5 hr =>
      refine ⟨ds, consume d (ds ++ ']' :: rest) s,
        argStep_ordinary s d (ds ++ ']' :: rest) (by simpa using hs) h3 h4 h5,
        by simp, by simp, hr, Nat.le_refl _⟩

/-- Soundness of the argument-section grammar: the argument loop consumes
any `ArgSeq` and stops at the following `]`. -/
theorem argLoop_sect (n : Nat) : ∀ (sect : List Char), sect.length ≤ n → ArgSeq sect →
    ∀ (rest : List Char) (s : St), s.rest = sect ++ ']' :: rest →
    ∃ s2, argLoop s = .ok s2 ∧ s2.rest = ']' :: rest ∧ s2.stack = s.stack := by
  induction n with
  | zero =>
      intro sect hlen hA rest s hs
      have hnil : sect = [] := List.eq_nil_of_length_eq_zero (Nat.le_zero.mp hlen)
      subst hnil
      simp only [List.nil_append] at hs
      exact ⟨s, argLoop_rbracket s rest hs, hs, rfl⟩
  | succ n ih =>
      intro sect hlen hA rest s hs
      cases sect with
      | nil =>
          simp only [List.nil_append] at hs
          exact ⟨s, argLoop_rbracket s rest hs, hs, rfl⟩
      | cons c0 sect' =>
          simp only [List.cons_append] at hs
          simp only [List.length_cons] at hlen
          by_cases hws : is_whitespace c0 = true
          · have hc0 : c0 ≠ ']' := by
              intro he
              rw [he] at hws
              exact absurd hws (by decide)
            rw [argLoop_eq, hs]
            simp only []
            rw [if_neg hc0, if_pos hws]
            have hA' : ArgSeq sect' := by
              cases hA with
              | ws _ _ _ h => exact h
              | esc _ _ _ => exact absurd hws (by decide)
              | quoted _ _ _ _ => exact absurd hws (by decide)
              | chr _ _ h1 _ _ _ _ _ => rw [h1] at hws; exact absurd hws (by simp)
            have hskrest : (skip_whitespace s).rest =
                (sect'.dropWhile is_whitespace) ++ ']' :: rest := by
              rw [skip_whitespace_drop, hs, List.dropWhile_cons, if_pos hws,
                dropWhile_ws_append_rb]
            have hskstk := skip_whitespace_stack s
            have hA2 := ArgSeq_dropWhile sect' hA'
            cases hdw : sect'.dropWhile is_whitespace with
            | nil =>
                rw [hdw, List.nil_append] at hskrest
                rw [if_pos (show (skip_whitespace s).rest.head? = some ']' from by
                  rw [hskrest]; rfl)]
                exact ⟨skip_whitespace s, rfl, hskrest, hskstk⟩
            | cons d ds =>
                have hdws : is_whitespace d = false := dropWhile_head_false sect' d ds hdw
                rw [hdw] at hA2 hskrest
                have hdne : d ≠ ']' := ArgSeq_head_ne d ds hA2 hdws
                rw [if_neg (show ¬ ((skip_whitespace s).rest.head? = some ']') from by
                  rw [hskrest]; simp [hdne])]
                obtain ⟨sect3, s2, hstep, h2, h3, hA3, hlen3⟩ :=
                  argStep_item d ds rest hA2 hdws (skip_whitespace s) hskrest
                rw [hstep]
                have hb2 : (d :: ds).length ≤ sect'.length := by
                  rw [← hdw]
                  exact dropWhile_len_le sect'
                simp only [List.length_cons] at hb2
                obtain ⟨s6, hl6, h6r, h6k⟩ := ih sect3 (by omega) hA3 rest s2 h2
                exact ⟨s6, by simp only []; exact hl6, h6r, by rw [h6k, h3, hskstk]⟩
          · have hwsf : is_whitespace c0 = false := by simpa using hws
            have hc0 : c0 ≠ ']' := ArgSeq_head_ne c0 sect' hA hwsf
            rw [argLoop_eq, hs]
            simp only []
            rw [if_neg hc0, if_neg hws]
            obtain ⟨sect3, s2, hstep, h2, h3, hA3, hlen3⟩ :=
              argStep_item c0 sect' rest hA hwsf s hs
            rw [hstep]
            obtain ⟨s6, hl6, h6r, h6k⟩ := ih sect3 (by omega) hA3 rest s2 h2
            exact ⟨s6, by simp only []; exact hl6, h6r, by rw [h6k, h3]⟩

/-- Completeness of a single argument step: on success it consumed one
argument item. -/
theorem argStep_complete (s s2 : St) (d : Char) (ds : List Char) (hrest : s.rest = d :: ds)
    (hd : d ≠ ']') (hws : is_whitespace d = false) (h : argStep s = .ok s2) :
    ∃ item, s.rest = item ++ s2.rest ∧ ArgSeq item ∧ s2.stack = s.stack := by
  unfold argStep at h
  rw [hrest] at h
  simp only [] at h
  split at h
  · rename_i hq
    obtain ⟨q, h1, h2, h3⟩ := quoteLoop_complete _ _ h
    simp only [consume_rest] at h1
    refine ⟨'"' :: (q ++ '"' :: []), ?_, ArgSeq.quoted q [] h2 ArgSeq.nil, ?_⟩
    · rw [hrest, hq, h1]
      simp
    · rw [h3]
      simp
  · split at h
    · rename_i hq hesc
      cases ds with
      | nil => simp at h
      | cons c2 r2 =>
          have hs2 : consume c2 r2 (consume d (c2 :: r2) s) = s2 := by
            injection h
          refine ⟨[escChar, c2], ?_, ArgSeq.esc c2 [] ArgSeq.nil, ?_⟩
          · rw [hrest, hesc, ← hs2]
            simp
          · rw [← hs2]
            simp
    · split at h
      · simp at h
      · rename_i hq hesc hbr
        have hs2 : consume d ds s = s2 := by
          injection h
        refine ⟨[d], ?_, ArgSeq.chr d [] hws hd hq hesc hbr ArgSeq.nil, ?_⟩
        · rw [hrest, ← hs2]
          simp
        · rw [← hs2]
          simp

/-- Completeness of the argument loop: success consumed an argument
section, which moreover never starts with `]`. -/
theorem argLoopF_complete (fuel : Nat) : ∀ (s s6 : St), argLoopF fuel s = .ok s6 →
    ∃ sect, s.rest = sect ++ s6.rest ∧ ArgSeq sect ∧ s6.stack = s.stack ∧
      (∀ e es, sect = e :: es → e ≠ ']') := by
  induction fuel with
  | zero => intro s s6 h; simp [argLoopF] at h
  | succ fuel ih =>
      intro s s6 h
      obtain ⟨rest, l, c, stk⟩ := s
      cases rest with
      | nil =>
          simp only [argLoopF] at h
          have h6 : (⟨[], l, c, stk⟩ : St) = s6 := by simpa using h
          refine ⟨[], by rw [← h6]; rfl, ArgSeq.nil, by rw [← h6], ?_⟩
          intro e es he
          cases he
      | cons ch r =>
          simp only [argLoopF] at h
          split at h
          · rename_i hb
            have h6 : (⟨ch :: r, l, c, stk⟩ : St) = s6 := by simpa using h
            refine ⟨[], by rw [← h6]; simp, ArgSeq.nil, by rw [← h6], ?_⟩
            intro e es he
            cases he
          · rename_i hb
            split at h
            · rename_i hws
              have hskr : (skip_whitespace ⟨ch :: r, l, c, stk⟩).rest =
                  (ch :: r).dropWhile is_whitespace :=
                skip_whitespace_drop _
              have hskk : (skip_whitespace ⟨ch :: r, l, c, stk⟩).stack = stk :=
                skip_whitespace_stack _
              split at h
              · rename_i hhd
                have h6 : skip_whitespace ⟨ch :: r, l, c, stk⟩ = s6 := by simpa using h
                refine ⟨(ch :: r).takeWhile is_whitespace, ?_, ?_, ?_, ?_⟩
                · rw [← h6, hskr]
                  exact (List.takeWhile_append_dropWhile _ _).symm
                · have := ArgSeq_ws_prepend ((ch :: r).takeWhile is_whitespace) []
                    (fun c hc => List.mem_takeWhile_imp hc) ArgSeq.nil
                  simpa using this
                · rw [← h6, hskk]
                · intro e es he
                  have hmem : e ∈ (ch :: r).takeWhile is_whitespace := by
                    rw [he]; simp
                  have hews : is_whitespace e = true := List.mem_takeWhile_imp hmem
                  intro hrb
                  rw [hrb] at hews
                  exact absurd hews (by decide)
              · rename_i hhd
                cases hstep : argStep (skip_whitespace ⟨ch :: r, l, c, stk⟩) with
                | error e =>
                    rw [hstep] at h
                    simp at h
                | ok s2 =>
                    rw [hstep] at h
                    simp only [] at h
                    obtain ⟨secttail, ht1, ht2, ht3, ht4⟩ := ih s2 s6 h
                    cases hdw : (ch :: r).dropWhile is_whitespace with
                    | nil =>
                        rw [hdw] at hskr
                        have herr : argStep (skip_whitespace ⟨ch :: r, l, c, stk⟩) =
                            .error .indexError := by
                          unfold argStep
                          rw [hskr]
                        rw [herr] at hstep
                        exact absurd hstep (by simp)
                    | cons d2 ds2 =>
                        rw [hdw] at hskr
                        have hd2ws : is_whitespace d2 = false :=
                          dropWhile_head_false (ch :: r) d2 ds2 hdw
                        have hd2ne : d2 ≠ ']' := by
                          intro he
                          rw [he] at hskr
                          rw [hskr] at hhd
                          exact hhd (by simp)
                        obtain ⟨item, hi1, hi2, hi3⟩ :=
                          argStep_complete _ _ d2 ds2 hskr hd2ne hd2ws hstep
                        have hdec : ch :: r =
                            ((ch :: r).takeWhile is_whitespace ++ (item ++ secttail))
                              ++ s6.rest := by
                          conv_rhs => rw [List.append_assoc, List.append_assoc]
                          rw [← ht1, ← hi1, hskr, ← hdw]
                          exact (List.takeWhile_append_dropWhile _ _).symm
                        refine ⟨(ch :: r).takeWhile is_whitespace ++ (item ++ secttail),
                          hdec, ?_, ?_, ?_⟩
                        · exact ArgSeq_ws_prepend _ _
                            (fun c hc => List.mem_takeWhile_imp hc)
                            (ArgSeq_append item secttail hi2 ht2)
                        · rw [ht3, hi3, hskk]
                        · intro e es he
                          rw [he] at hdec
                          simp only [List.cons_append] at hdec
                          injection hdec with he1 _
                          rw [← he1]
                          intro hx
                          rw [hx] at hws
                          exact absurd hws (by decide)
            · rename_i hws
              cases hstep : argStep ⟨ch :: r, l, c, stk⟩ with
              | error e =>
                  rw [hstep] at h
                  simp at h
              | ok s2 =>
                  rw [hstep] at h
                  simp only [] at h
                  obtain ⟨secttail, ht1, ht2, ht3, ht4⟩ := ih s2 s6 h
                  have hwsf : is_whitespace ch = false := by simpa using hws
                  obtain ⟨item, hi1, hi2, hi3⟩ :=
                    argStep_complete _ _ ch r rfl hb hwsf hstep
                  have hdec : ch :: r = (item ++ secttail) ++ s6.rest := by
                    rw [List.append_assoc, ← ht1]
                    exact hi1
                  refine ⟨item ++ secttail, hdec,
                    ArgSeq_append item secttail hi2 ht2, by rw [ht3, hi3], ?_⟩
                  intro e es he
                  rw [he] at hdec
                  simp only [List.cons_append] at hdec
                  injection hdec with he1 _
                  rw [← he1]
                  exact hb

theorem argLoop_complete (s s6 : St) (h : argLoop s = .ok s6) :
    ∃ sect, s.rest = sect ++ s6.rest ∧ ArgSeq sect ∧ s6.stack = s.stack ∧
      (∀ e es, sect = e :: es → e ≠ ']') :=
  argLoopF_complete _ s s6 h

/-- Soundness: `parseNameArgs` accepts `name ++ sect ++ "]"` for any valid
name and argument section (empty or starting with whitespace). -/
theorem parseNameArgs_spec_sound (b : Bool) (name sect rest : List Char)
    (hn : specName name = true) (hA : ArgSeq sect)
    (hhd : ∀ c r, sect = c :: r → is_whitespace c = true)
    (l c : Nat) (stk : List String) :
    ∃ s', parseNameArgs b ⟨name ++ (sect ++ ']' :: rest), l, c, stk⟩ =
      .ok (b, String.mk name, s') ∧ s'.rest = rest ∧ s'.stack = stk := by
  have hvn : validName (String.mk name) = true := by
    rw [← specName_validName]; exact hn
  cases sect with
  | nil =>
      have h1 := parseTagName_run (String.mk name) hvn ']' rest l c stk (Or.inr rfl)
      rw [data_mk] at h1
      unfold parseNameArgs
      rw [List.nil_append]
      rw [h1]
      simp only []
      rw [skip_whitespace_not_ws _ ']' rest rfl (by decide)]
      rw [argLoop_rbracket _ rest rfl]
      simp only []
      exact ⟨consume ']' rest ⟨']' :: rest, l, c + (String.mk name).length, stk⟩,
        rfl, by simp, by simp⟩
  | cons c0 sect' =>
      have hws0 : is_whitespace c0 = true := hhd c0 sect' rfl
      have h1 := parseTagName_run (String.mk name) hvn c0 (sect' ++ ']' :: rest) l c stk
        (Or.inl hws0)
      rw [data_mk] at h1
      unfold parseNameArgs
      rw [show (name ++ ((c0 :: sect') ++ ']' :: rest)) =
        name ++ c0 :: (sect' ++ ']' :: rest) from by simp]
      rw [h1]
      simp only []
      have hs5r : (skip_whitespace ⟨c0 :: (sect' ++ ']' :: rest), l,
          c + (String.mk name).length, stk⟩).rest =
          ((c0 :: sect').dropWhile is_whitespace) ++ ']' :: rest := by
        rw [skip_whitespace_drop]
        show (c0 :: (sect' ++ ']' :: rest)).dropWhile is_whitespace = _
        rw [show (c0 :: (sect' ++ ']' :: rest)) = (c0 :: sect') ++ ']' :: rest from by simp]
        exact dropWhile_ws_append_rb _ _
      have hs5k : (skip_whitespace ⟨c0 :: (sect' ++ ']' :: rest), l,
          c + (String.mk name).length, stk⟩).stack = stk := skip_whitespace_stack _
      have hA2 : ArgSeq ((c0 :: sect').dropWhile is_whitespace) :=
        ArgSeq_dropWhile _ hA
      obtain ⟨s6, h6, h6r, h6k⟩ := argLoop_sect
        ((c0 :: sect').dropWhile is_whitespace).length
        ((c0 :: sect').dropWhile is_whitespace) (Nat.le_refl _) hA2 rest _ hs5r
      rw [h6]
      simp only []
      rw [h6r]
      simp only []
      exact ⟨consume ']' rest s6, rfl, by simp,
        by simp only [consume_stack]; rw [h6k]; exact hs5k⟩

/-- Completeness: a successful `parseNameArgs` consumed a valid name, an
argument section (empty or whitespace-first) and the terminating `]`. -/
theorem parseNameArgs_complete (b : Bool) (s : St) (isc : Bool) (nm : String) (s' : St)
    (h : parseNameArgs b s = .ok (isc, nm, s')) :
    ∃ name sect, s.rest = name ++ (sect ++ ']' :: s'.rest) ∧ specName name = true ∧
      ArgSeq sect ∧ (∀ c r, sect = c :: r → is_whitespace c = true) ∧
      s'.stack = s.stack ∧ isc = b := by
  unfold parseNameArgs at h
  cases hx : parseTagName s with
  | error e => rw [hx] at h; simp at h
  | ok p =>
      obtain ⟨tag_name, s4⟩ := p
      rw [hx] at h
      simp only [] at h
      obtain ⟨nh, nr, d, r4, hp1, hp2, hp3, hp4, hp5, hp6⟩ := parseTagName_complete s _ _ hx
      cases hy : argLoop (skip_whitespace s4) with
      | error e => rw [hy] at h; simp at h
      | ok s6 =>
          rw [hy] at h
          simp only [] at h
          split at h
          · rename_i r6 heq
            simp only [Except.ok.injEq, Prod.mk.injEq] at h
            obtain ⟨hb, hnm, hs'⟩ := h
            obtain ⟨sect', ha1, ha2, ha3, ha4⟩ := argLoop_complete _ _ hy
            have hdw : s4.rest.dropWhile is_whitespace = sect' ++ s6.rest := by
              rw [← skip_whitespace_drop]
              exact ha1
            have hsplit : s4.rest =
                s4.rest.takeWhile is_whitespace ++ (sect' ++ s6.rest) := by
              rw [← hdw]
              exact (List.takeWhile_append_dropWhile _ _).symm
            have hsrest : s'.rest = r6 := by rw [← hs']; simp
            refine ⟨nh :: nr, s4.rest.takeWhile is_whitespace ++ sect', ?_, ?_, ?_, ?_, ?_,
              hb.symm⟩
            · rw [hp1]
              rw [show s4.rest.takeWhile is_whitespace ++ sect' ++ ']' :: s'.rest =
                s4.rest.takeWhile is_whitespace ++ (sect' ++ ']' :: s'.rest) from by simp]
              rw [show (']' : Char) :: s'.rest = s6.rest from by rw [hsrest, heq]]
              rw [← hsplit]
            · rw [specName_validName]
              show (isNameStart nh && nr.all isNameChar) = true
              rw [hp2, hp3]
              rfl
            · exact ArgSeq_ws_prepend _ _ (fun x hx2 => List.mem_takeWhile_imp hx2) ha2
            · intro c0 r0 hc0
              cases htw : s4.rest.takeWhile is_whitespace with
              | cons w ws' =>
                  rw [htw] at hc0
                  simp only [List.cons_append] at hc0
                  injection hc0 with hc1 _
                  rw [← hc1]
                  exact List.mem_takeWhile_imp (by rw [htw]; simp)
              | nil =>
                  rw [htw, List.nil_append] at hc0
                  have hdnw : is_whitespace d = false := by
                    by_contra hdx
                    simp only [Bool.not_eq_false] at hdx
                    rw [hp4, List.takeWhile_cons, if_pos hdx] at htw
                    simp at htw
                  have hdrb : d = ']' := by
                    rcases hp5 with h5 | h5
                    · rw [h5] at hdnw; simp at hdnw
                    · exact h5
                  have : sect' ++ s6.rest = d :: r4 := by
                    rw [← hdw, hp4, List.dropWhile_cons, if_neg (by rw [hdnw]; simp)]
                  rw [hc0] at this
                  simp only [List.cons_append] at this
                  injection this with hc1 _
                  exact absurd (hc1.trans hdrb) (ha4 c0 r0 hc0)
            · rw [← hs']
              simp only [consume_stack]
              rw [ha3, skip_whitespace_stack, hp6]
          · simp at h

/-- Soundness: `parseConstruct` accepts any opening construct of the
amended grammar. -/
theorem parseConstruct_open_sound (name sect rest : List Char)
    (hname : specName name = true) (hargs : ArgSeq sect)
    (hhd : ∀ c r, sect = c :: r → is_whitespace c = true) (l c : Nat)
    (stk : List String) :
    ∃ s', parseConstruct ⟨'[' :: (name ++ (sect ++ ']' :: rest)), l, c, stk⟩ =
      .ok (false, String.mk name, s') ∧ s'.rest = rest ∧ s'.stack = stk := by
  have hvn : validName (String.mk name) = true := by
    rw [← specName_validName]; exact hname
  obtain ⟨nh, run, hnd, hstart, hrun⟩ := validName_head _ hvn
  rw [data_mk] at hnd
  have hne : nh ≠ '/' :=
    (isNameChar_ne nh (isNameStart_isNameChar nh hstart)).2.2.2.1
  obtain ⟨s', hps, hpr, hpk⟩ := parseNameArgs_spec_sound false name sect rest hname hargs
    hhd l (c + 1) stk
  unfold parseConstruct
  simp only []
  rw [hnd]
  split
  · rename_i r1 heq
    exact absurd (by injection heq) hne
  · rw [consume_not_nl '[' _ _ (by decide)]
    simp only [St.line, St.col, St.stack]
    rw [← hnd]
    exact ⟨s', hps, hpr, hpk⟩

/-- Soundness: `parseConstruct` accepts any closing construct of the
amended grammar. -/
theorem parseConstruct_close_sound (name sect rest : List Char)
    (hname : specName name = true) (hargs : ArgSeq sect)
    (hhd : ∀ c r, sect = c :: r → is_whitespace c = true) (l c : Nat)
    (stk : List String) :
    ∃ s', parseConstruct ⟨'[' :: '/' :: (name ++ (sect ++ ']' :: rest)), l, c, stk⟩ =
      .ok (true, String.mk name, s') ∧ s'.rest = rest ∧ s'.stack = stk := by
  obtain ⟨s', hps, hpr, hpk⟩ := parseNameArgs_spec_sound true name sect rest hname hargs
    hhd l (c + 1 + 1) stk
  unfold parseConstruct
  simp only []
  rw [consume_not_nl '[' _ _ (by decide), consume_not_nl '/' _ _ (by decide)]
  simp only [St.line, St.col, St.stack]
  exact ⟨s', hps, hpr, hpk⟩

/-- C1 counterexample ingredients: the parser accepts a closing construct
carrying an argument and an opening construct with two abutting quoted
arguments; neither matches the claimed surface grammar. -/
theorem claim_construct_grammar_cex :
    parseConstruct ⟨"[/b x]".data, 1, 1, []⟩ = .ok (true, "b", ⟨[], 1, 7, []⟩)
    ∧ specConstructClaimed "[/b x]".data = false
    ∧ parseConstruct ⟨"[b \"a\"\"c\"]".data, 1, 1, []⟩ = .ok (false, "b", ⟨[], 1, 11, []⟩)
    ∧ specConstructClaimed "[b \"a\"\"c\"]".data = false := by
  refine ⟨?_, ?_, ?_, ?_⟩ <;> decide

/-- C1 (amended): over all-ASCII input — the domain on which the embedded
name classifier provably coincides with Python's Unicode-aware
`str.isalnum` — the set of tag constructs accepted by the Tag Construct
Parser is exactly the amended surface grammar `SpecConstructAm`: `[`, an
optional `/`, a name matching `[A-Za-z0-9#][A-Za-z0-9#_-]*`, an argument
section that is empty or starts with whitespace (any sequence of
whitespace, escaped pairs, double-quoted runs and plain characters — so
arguments after the first need no whitespace separator, and closing
constructs may carry arguments), and `]`.  Completeness: every successful
parse consumed such a construct.  Soundness: every such construct prefix
parses successfully, leaving exactly the remainder.  Outside ASCII the
source accepts further names (any `str.isalnum` character, e.g. `'あ'`),
which no `[A-Za-z0-9#]`-based grammar captures; that divergence is part
of the correction and is why this theorem carries the ASCII hypothesis. -/
theorem claim_construct_grammar (cs : List Char) (l c : Nat) (stk : List String)
    (hascii : cs.all (fun ch => ch.toNat < 128) = true) :
    (∀ isc nm s', parseConstruct ⟨'[' :: cs, l, c, stk⟩ = .ok (isc, nm, s') →
       ∃ construct, '[' :: cs = construct ++ s'.rest ∧ SpecConstructAm construct ∧
         s'.stack = stk)
    ∧ (∀ construct rest, '[' :: cs = construct ++ rest → SpecConstructAm construct →
       ∃ isc nm s', parseConstruct ⟨'[' :: cs, l, c, stk⟩ = .ok (isc, nm, s') ∧
         s'.rest = rest ∧ s'.stack = stk) := by
  constructor
  · intro isc nm s' h
    unfold parseConstruct at h
    simp only [] at h
    split at h
    · rename_i r1
      obtain ⟨name, sect, hc1, hc2, hc3, hc4, hc5, hc6⟩ :=
        parseNameArgs_complete true _ isc nm s' h
      simp only [consume_rest] at hc1
      refine ⟨'[' :: ('/' :: (name ++ (sect ++ [']']))), ?_, ?_, ?_⟩
      · rw [hc1]
        simp
      · exact ⟨true, name, sect, by simp, hc2, hc3, hc4⟩
      · simpa using hc5
    · obtain ⟨name, sect, hc1, hc2, hc3, hc4, hc5, hc6⟩ :=
        parseNameArgs_complete false _ isc nm s' h
      simp only [consume_rest] at hc1
      refine ⟨'[' :: (name ++ (sect ++ [']'])), ?_, ?_, ?_⟩
      · rw [hc1]
        simp
      · exact ⟨false, name, sect, by simp, hc2, hc3, hc4⟩
      · simpa using hc5
  · intro construct rest hdec hspec
    obtain ⟨closing, name, sect, hck, hname, hargs, hhd⟩ := hspec
    rw [hck] at hdec
    simp only [List.cons_append] at hdec
    injection hdec with _ hcs
    cases closing with
    | true =>
        simp only [if_pos rfl, List.cons_append, List.nil_append,
          List.append_assoc, List.singleton_append] at hcs
        subst hcs
        obtain ⟨s', hps, hpr, hpk⟩ := parseConstruct_close_sound name sect rest hname
          hargs hhd l c stk
        exact ⟨true, String.mk name, s', hps, hpr, hpk⟩
    | false =>
        simp only [if_neg (show ¬ (False) from not_false), List.nil_append,
          List.append_assoc, List.singleton_append] at hcs
        subst hcs
        obtain ⟨s', hps, hpr, hpk⟩ := parseConstruct_open_sound name sect rest hname
          hargs hhd l c stk
        exact ⟨false, String.mk name, s', hps, hpr, hpk⟩

/-- Witness for C1: both concrete inputs are all-ASCII (discharging the
scope hypothesis); completeness is applied to the accepted construct `[b]`
(a concrete successful parse), and soundness to the amended-grammar
construct `[b "a" x]` as a prefix of `[b "a" x]tail`. -/
theorem claim_construct_grammar_witness :
    ("b]".data.all (fun ch => ch.toNat < 128) = true)
    ∧ ("b \"a\" x]tail".data.all (fun ch => ch.toNat < 128) = true)
    ∧ (∃ construct, "[b]".data = construct ++ ([] : List Char) ∧
      SpecConstructAm construct ∧ ([] : List String) = ([] : List String))
    ∧ (∃ isc nm s',
        parseConstruct ⟨'[' :: "b \"a\" x]tail".data, 1, 1, []⟩ = .ok (isc, nm, s') ∧
        s'.rest = "tail".data ∧ s'.stack = ([] : List String)) := by
  refine ⟨by decide, by decide, ?_, ?_⟩
  · have h := (claim_construct_grammar "b]".data 1 1 [] (by decide)).1 false "b"
      ⟨[], 1, 4, []⟩ (by decide)
    obtain ⟨construct, h1, h2, h3⟩ := h
    exact ⟨construct, h1, h2, rfl⟩
  · exact (claim_construct_grammar "b \"a\" x]tail".data 1 1 [] (by decide)).2
      ('[' :: "b \"a\" x]".data) "tail".data
      (by decide)
      (by
        refine ⟨false, ['b'], [' ', '"', 'a', '"', ' ', 'x'], by decide, by decide, ?_, ?_⟩
        · exact ArgSeq.ws ' ' _ (by decide)
            (ArgSeq.quoted ['a'] _ (QBody.chr 'a' [] (by decide) (by decide) QBody.nil)
              (ArgSeq.ws ' ' _ (by decide)
                (ArgSeq.chr 'x' [] (by decide) (by decide) (by decide) (by decide)
                  (by decide) ArgSeq.nil)))
        · intro c0 r0 hc0
          injection hc0 with h1 _
          rw [← h1]
          decide)
